import Mathlib

/-!
Verification of the mapbox-gl-style-spec repository claims.

The repository maintains declarative map-style JSON documents: a structural
diff engine between two style documents, a declass helper flattening paint
classes, a v9 migration rewriting stops-based property functions, and schema
validators.  This file embeds the data model and the operations the claims
are about and proves or refutes each claim.
-/

namespace StyleSpec

/-- JSON-like values: the dynamic values style documents are made of
(property values, filters, sources, camera values).  Objects are ordered
association lists, as JavaScript objects are ordered by insertion. -/
inductive JValue where
  | null
  | bool (b : Bool)
  | num (n : Int)
  | str (s : String)
  | arr (elems : List JValue)
  | obj (fields : List (String × JValue))

/-- Key lookup in a JSON object's field list (first match wins, as in a
JavaScript object where keys are unique). -/
def lookupJ (k : String) : List (String × JValue) → Option JValue
  | [] => none
  | (k2, v) :: rest => if k2 = k then some v else lookupJ k rest

/-- `hasOwnProperty`. -/
def hasKeyJ (k : String) (fs : List (String × JValue)) : Bool :=
  (lookupJ k fs).isSome

/-- Decimal digits of a natural number (the fuel strictly bounds the digit
count). -/
def natDigitsAux : Nat → Nat → List Char
  | 0, _ => []
  | f + 1, n => if n < 10 then [Nat.digitChar n] else natDigitsAux f (n / 10) ++ [Nat.digitChar (n % 10)]

/-- Decimal rendering of a natural number, for array index keys and indexed error keys. -/
def natKey (n : Nat) : String :=
  ⟨natDigitsAux (n + 1) n⟩

mutual

/-- Deep structural equality over JSON values, embedding `lodash.isEqual`
as the diff engine uses it: arrays compare element by element in order,
objects compare key-by-key with key order irrelevant. -/
def deq : JValue → JValue → Bool
  | .null, .null => true
  | .bool a, .bool b => a == b
  | .num a, .num b => a == b
  | .str a, .str b => a == b
  | .arr xs, .arr ys => deqList xs ys
  | .obj xs, .obj ys => deqFields xs ys && ys.all (fun kv => hasKeyJ kv.1 xs)
  | _, _ => false

/-- Element-wise deep equality of two JSON arrays. -/
def deqList : List JValue → List JValue → Bool
  | [], [] => true
  | x :: xs, y :: ys => deq x y && deqList xs ys
  | _, _ => false

/-- Each field of the first object is present in the second with a deeply
equal value. -/
def deqFields : List (String × JValue) → List (String × JValue) → Bool
  | [], _ => true
  | (k, v) :: rest, ys =>
    (match lookupJ k ys with
     | some w => deq v w
     | none => false) && deqFields rest ys

end

/-- Deep equality lifted to possibly-absent values: two absent fields are
equal, an absent field differs from any present one. -/
def deqOpt : Option JValue → Option JValue → Bool
  | none, none => true
  | some v, some w => deq v w
  | _, _ => false

/-! ## The diff engine

The diff implementation (`lib/diff.js`) is not part of the available source
tree; only its test suite is.  The engine below is therefore modelled from
the specification's description of the algorithm (top-level short-circuit on
`version`, source presence diff, the layer removal / move / addition passes
with the ref-removal cascade, per-key paint and layout diffs, filter and
zoom-range replacement, light and camera diffs) and is checked against the
repository's own diff test suite further down in this file. -/

/-- Property maps (`paint`, `layout`, `paint.<class>` blocks): ordered
association lists from property name to value. -/
abbrev Props := List (String × JValue)

/-- A layer of a style document, with the fields the diff engine reads.
`paintClasses` collects the `paint.<class>` overlays keyed by class name.
`metadata` is carried but never compared: the engine ignores it. -/
structure Layer where
  id : String
  ref : Option String := none
  typ : Option JValue := none
  source : Option JValue := none
  sourceLayer : Option JValue := none
  filter : Option JValue := none
  minzoom : Option JValue := none
  maxzoom : Option JValue := none
  layout : Option Props := none
  paint : Option Props := none
  paintClasses : List (String × Props) := []
  metadata : Option JValue := none

/-- A style document.  A missing top-level key is `none` (an absent
`sources`/`layers` behaves as the empty collection).  `metadata` is carried
but never compared. -/
structure StyleDoc where
  version : Option Int := none
  sources : List (String × JValue) := []
  layers : List Layer := []
  light : Option JValue := none
  center : Option JValue := none
  zoom : Option JValue := none
  bearing : Option JValue := none
  pitch : Option JValue := none
  metadata : Option JValue := none

/-- The operations a diff produces, with the argument shapes of the wire
format table: `{command, args}`. -/
inductive Op where
  | setStyle (after : StyleDoc)
  | addSource (id : String) (source : JValue)
  | removeSource (id : String)
  | addLayer (layer : Layer) (insertBeforeId : Option String)
  | removeLayer (id : String)
  | setPaintProperty (layerId prop : String) (value : Option JValue) (klass : Option String)
  | setLayoutProperty (layerId prop : String) (value : Option JValue) (klass : Option String)
  | setFilter (layerId : String) (filter : Option JValue)
  | setLayerZoomRange (layerId : String) (minzoom maxzoom : Option JValue)
  | setLight (light : Option JValue)
  | setCenter (center : Option JValue)
  | setZoom (zoom : Option JValue)
  | setBearing (bearing : Option JValue)
  | setPitch (pitch : Option JValue)

/-- Ids of a layer list, in order. -/
def idsOf (ls : List Layer) : List String := ls.map Layer.id

/-- No layers, no ids. -/
theorem idsOf_nil : idsOf [] = [] := rfl

/-- Modelled from the spec: source diff of the missing `lib/diff.js`.
Sources are compared by presence only: a source id present in `before` but
absent from `after` emits `removeSource`, one present only in `after` emits
`addSource`; removals precede additions. -/
def sourceOps (bs asrc : List (String × JValue)) : List Op :=
  (bs.filterMap fun kv =>
    if hasKeyJ kv.1 asrc then none else some (Op.removeSource kv.1)) ++
  (asrc.filterMap fun kv =>
    if hasKeyJ kv.1 bs then none else some (Op.addSource kv.1 kv.2))

/-- Modelled from the spec: removal pass of the missing `lib/diff.js`'s
layer diff.  A `before` layer absent from `after` emits one `removeLayer`,
except when its `ref` target is itself absent from `after`: removing the
target already removes its dependents on the applier side, so the engine
emits a single `removeLayer` per cascade root and none for the dependent
(the repository's `remove referenced layers` tests pin this behaviour). -/
def removalOps (bls : List Layer) (afterIds : List String) : List Op :=
  bls.filterMap fun l =>
    if afterIds.contains l.id then none
    else
      match l.ref with
      | some r => if afterIds.contains r then some (Op.removeLayer l.id) else none
      | none => some (Op.removeLayer l.id)

/-- Insert into a list at an index (append when the index is past the end),
as `splice(idx, 0, x)` does. -/
def insertAtS : List String → Nat → String → List String
  | xs, 0, a => a :: xs
  | [], _ + 1, a => [a]
  | x :: xs, n + 1, a => x :: insertAtS xs n a

/-- Modelled from the spec: move/addition pass of the missing
`lib/diff.js`'s layer diff.  `after`'s layers are scanned from last to
first (`rest` is the reversed `after` list, `j` counts layers already
placed).  `tracker` tracks the surviving `before` order as if the emitted
operations had been applied.  A layer already at its tracked position from
the end is left alone; otherwise a surviving layer is removed and re-added
(a move) and an `after`-only layer is added, in both cases anchored on the
tracked layer now at the insertion position (`none` anchors at the end). -/
def movePass (beforeIds : List String) : List Layer → Nat → List String → List Op
  | [], _, _ => []
  | l :: rest, j, tracker =>
    if j < tracker.length && tracker[tracker.length - 1 - j]? == some l.id then
      movePass beforeIds rest (j + 1) tracker
    else
      let moved := beforeIds.contains l.id
      let tr1 := if moved then tracker.erase l.id else tracker
      let anchor := tr1[tr1.length - j]?
      (if moved then [Op.removeLayer l.id] else []) ++
        Op.addLayer l anchor :: movePass beforeIds rest (j + 1) (insertAtS tr1 (tr1.length - j) l.id)

/-- Modelled from the spec: per-key property diff of the missing
`lib/diff.js` (`diffLayerPropertyChanges`).  Every key of `before` whose
value is absent from `after` or deeply differs emits one operation carrying
`after`'s whole value (absent encoded as `none`); then every key only in
`after` emits one operation. -/
def diffProps (emit : String → Option JValue → Op) (bp ap : Props) : List Op :=
  (bp.filterMap fun kv =>
    match lookupJ kv.1 ap with
    | some w => if deq kv.2 w then none else some (emit kv.1 (some w))
    | none => some (emit kv.1 none)) ++
  (ap.filterMap fun kv =>
    if hasKeyJ kv.1 bp then none else some (emit kv.1 (some kv.2)))

/-- The paint block of a layer for a class (`none` is the base `paint`),
an absent block behaving as empty. -/
def classProps (l : Layer) : Option String → Props
  | none => l.paint.getD []
  | some c =>
    match l.paintClasses.find? (fun kv => kv.1 == c) with
    | some kv => kv.2
    | none => []

/-- Class names appearing on either layer: `before`'s in order, then
`after`-only ones. -/
def classNames (bl al : Layer) : List String :=
  bl.paintClasses.map Prod.fst ++
    (al.paintClasses.map Prod.fst).filter
      (fun k => !(bl.paintClasses.map Prod.fst).contains k)

/-- Modelled from the spec: the update pass of the missing `lib/diff.js`
for one layer present and unmoved in both documents: per-key paint diffs
for the base `paint` and each `paint.<class>`, per-key layout diffs, a
wholesale `setFilter` when the filter deeply differs, and one
`setLayerZoomRange` covering both bounds when either differs. -/
def updateLayerOps (bl al : Layer) : List Op :=
  let i := al.id
  diffProps (fun k v => Op.setPaintProperty i k v none) (classProps bl none) (classProps al none) ++
  ((classNames bl al).flatMap fun c =>
    diffProps (fun k v => Op.setPaintProperty i k v (some c))
      (classProps bl (some c)) (classProps al (some c))) ++
  diffProps (fun k v => Op.setLayoutProperty i k v none) (bl.layout.getD []) (al.layout.getD []) ++
  (if deqOpt bl.filter al.filter then [] else [Op.setFilter i al.filter]) ++
  (if deqOpt bl.minzoom al.minzoom && deqOpt bl.maxzoom al.maxzoom then []
   else [Op.setLayerZoomRange i al.minzoom al.maxzoom])

/-- First layer with the given id. -/
def lookupLayer (i : String) : List Layer → Option Layer
  | [] => none
  | l :: rest => if l.id = i then some l else lookupLayer i rest

/-- Ids the move/addition pass removed and re-added (its `removeLayer`
operations target exactly the moved layers). -/
def movedOf (ops : List Op) : List String :=
  ops.filterMap fun op =>
    match op with
    | .removeLayer i => some i
    | _ => none

/-- Modelled from the spec: update pass over all surviving, unmoved layers
in `after` order. -/
def updatePass (bls als : List Layer) (movedIds : List String) : List Op :=
  als.flatMap fun al =>
    if movedIds.contains al.id then []
    else
      match lookupLayer al.id bls with
      | some bl => updateLayerOps bl al
      | none => []

/-- Modelled from the spec: the layer diff of the missing `lib/diff.js`:
removals (with the ref cascade), then moves and additions, then per-layer
property updates. -/
def layerPass (bls als : List Layer) : List Op :=
  let afterIds := idsOf als
  let remOps := removalOps bls afterIds
  let tracker0 := (idsOf bls).filter fun i => afterIds.contains i
  let mOps := movePass (idsOf bls) als.reverse 0 tracker0
  remOps ++ mOps ++ updatePass bls als (movedOf mOps)

/-- Modelled from the spec: the missing `lib/diff.js` entry point
`diffStyles(before, after)`.  Differing versions short-circuit to a single
`setStyle`; otherwise source diff, layer diff, light diff and the four
camera diffs are concatenated in the fixed order. -/
def diffStyles (before after : StyleDoc) : List Op :=
  if before.version ≠ after.version then [Op.setStyle after]
  else
    sourceOps before.sources after.sources ++
    layerPass before.layers after.layers ++
    (if deqOpt before.light after.light then [] else [Op.setLight after.light]) ++
    (if deqOpt before.center after.center then [] else [Op.setCenter after.center]) ++
    (if deqOpt before.zoom after.zoom then [] else [Op.setZoom after.zoom]) ++
    (if deqOpt before.bearing after.bearing then [] else [Op.setBearing after.bearing]) ++
    (if deqOpt before.pitch after.pitch then [] else [Op.setPitch after.pitch])

/-! ## Declass (`lib/declass.js`)

`declassStyle(style, classes)` returns a new style with the given paint
classes merged into each layer's main `paint` definition.  The embedding
works on raw JSON values, mirroring the dynamic object code. -/

/-- JavaScript `for (k in v)` enumeration of a possibly-absent value's own
enumerable keys: an object's fields in insertion order, an array's indices,
and nothing for primitives or an absent value. -/
def fieldsOf : Option JValue → List (String × JValue)
  | some (.obj fs) => fs
  | some (.arr xs) => xs.enum.map fun p => (natKey p.1, p.2)
  | _ => []

/-- `for (k in v)` over a present value. -/
def fieldsOfV (v : JValue) : List (String × JValue) := fieldsOf (some v)

/-- `extend(dest, source)` of `lib/declass.js`: a fresh object holding
`dest`'s keys (in order, values overridden by `source` where both have the
key) followed by `source`-only keys. -/
def extendFields (dest source : List (String × JValue)) : List (String × JValue) :=
  (dest.map fun kv => (kv.1, (lookupJ kv.1 source).getD kv.2)) ++
    source.filter fun kv => !hasKeyJ kv.1 dest

/-- `declassLayer(layer, klass)`: a copy of the layer whose `paint` is
`extend(layer.paint, layer['paint.' + klass])`. -/
def declassLayerJ (layer : JValue) (klass : String) : JValue :=
  .obj (extendFields (fieldsOfV layer)
    [("paint", .obj (extendFields
      (fieldsOf (lookupJ "paint" (fieldsOfV layer)))
      (fieldsOf (lookupJ ("paint." ++ klass) (fieldsOfV layer)))))])

/-- `declassStyle(style, classes)`: each layer is reduced through
`declassLayer` over the class list; `none` models the TypeError raised when
`style.layers` is not an array (`style.layers.map` is then not callable). -/
def declassStyleJ (style : JValue) (classes : List String) : Option JValue :=
  match lookupJ "layers" (fieldsOfV style) with
  | some (.arr ls) =>
    some (.obj (extendFields (fieldsOfV style)
      [("layers", .arr (ls.map fun l => classes.foldl declassLayerJ l))]))
  | _ => none

/-! ## The v9 migration (`migrations/v9.js`)

`migrateFunction(key, value)` rewrites a `stops`-based property function
value into the v9 `{type, domain, range}` form, in place.  The embedding
below is the value-level rewrite; the schema lookup
`getProperty(key).function === 'discrete'` is abstracted into the
`discrete` argument, since the schema reference document is external to the
source tree. -/

/-- `stops[i][n]`: element `n` of one stop (JavaScript yields `undefined`,
embedded as `null`, off the end or on a non-array stop). -/
def stopNth (e : JValue) (n : Nat) : JValue :=
  match e with
  | .arr xs => (xs.get? n).getD .null
  | _ => .null

/-- JavaScript truthiness of a JSON value. -/
def jTruthy : JValue → Bool
  | .null => false
  | .bool b => b
  | .num n => n != 0
  | .str s => s ≠ ""
  | .arr _ => true
  | .obj _ => true

/-- `migrateFunction` of `migrations/v9.js` on one property value: when the
value has a truthy `stops` field, `domain` collects the stop inputs and
`range` the stop outputs; a discrete property becomes `type: "interval"`
with the first domain entry shifted off and `base` deleted, any other
becomes `type: "exponential"`; `stops` is deleted.  Values without `stops`
are left alone (the source's remaining branch resolves a `"@..."` constant
reference and rewrites the constants-table entry, not this value). -/
def migrateFunction (discrete : Bool) (v : JValue) : JValue :=
  match v with
  | .obj kvs =>
    match lookupJ "stops" kvs with
    | some st =>
      if jTruthy st then
        let stops := match st with | .arr xs => xs | _ => []
        let domain := stops.map fun e => stopNth e 0
        let range := stops.map fun e => stopNth e 1
        if discrete then
          .obj ((kvs.filter fun kv => kv.1 ≠ "stops" ∧ kv.1 ≠ "base") ++
            [("domain", .arr (domain.drop 1)), ("range", .arr range),
             ("type", .str "interval")])
        else
          .obj ((kvs.filter fun kv => kv.1 ≠ "stops") ++
            [("domain", .arr domain), ("range", .arr range),
             ("type", .str "exponential")])
      else v
    | none => v
  | _ => v

/-- A property value of the exact shape the migration rewrites:
`{stops: [[d1, r1], ..., [dn, rn]], base?}`. -/
def mkStopsFn (stops : List (JValue × JValue)) (base : Option JValue) : JValue :=
  .obj (("stops", .arr (stops.map fun p => .arr [p.1, p.2])) ::
    (match base with
     | some b => [("base", b)]
     | none => []))

/-! ## The validators

`validate_function.js` and the filter validator are part of the source;
their collaborators (`validate_object`, `validate_array`, `validate_enum`,
the schema reference) are not, and are either taken as arguments or
modelled from the specification's description of the schema model. -/

/-- A validation error: the offending key path and a message
(`ValidationError` of the source, with the message formatting flattened). -/
structure VErr where
  key : String
  message : String
deriving DecidableEq

/-- `getType` of the source utilities: the dynamic type tag of a value. -/
def getTypeJ : JValue → String
  | .null => "null"
  | .bool _ => "boolean"
  | .num _ => "number"
  | .str _ => "string"
  | .arr _ => "array"
  | .obj _ => "object"

/-- Modelled from the spec: `validate_enum.js` is absent from the source
tree.  An enum value must be one of the schema's `values` list; anything
else is one error. -/
def validateEnumModel (key : String) (allowed : List String) (v : JValue) : List VErr :=
  match v with
  | .str s => if allowed.contains s then [] else [⟨key, "expected one of the enum values"⟩]
  | _ => [⟨key, "expected one of the enum values"⟩]

/-- Modelled from the spec: `validate_object.js` is absent from the source
tree.  Basic object validation reports one error per key unknown to the
schema (the in-source `validate_light.js` shows the unknown-property shape
of such errors) and one per missing required key; `validateFunction`
dereferences `value.domain` and `value.range` unguarded after object
validation passes, so `domain` and `range` are required by the function
schema. -/
def validateObjectModel (key : String) (allowed required : List String)
    (fields : List (String × JValue)) : List VErr :=
  (fields.filterMap fun kv =>
    if allowed.contains kv.1 then none
    else some ⟨key ++ "." ++ kv.1, "unknown property"⟩) ++
  (required.filterMap fun k =>
    if hasKeyJ k fields then none
    else some ⟨key ++ "." ++ k, "missing required property"⟩)

/-- Modelled from the spec: the v9 function schema's keys.  `domain` and
`range` are required (see `validateObjectModel`). -/
def fnAllowedKeys : List String := ["type", "domain", "range", "base", "property", "rounding"]

/-- The function schema's required keys. -/
def fnRequiredKeys : List String := ["domain", "range"]

/-- JavaScript `<` as the source's ascending-domain check uses it: numbers
compare numerically, strings lexicographically, anything else is not less. -/
def jLt : JValue → JValue → Bool
  | .num a, .num b => a < b
  | .str a, .str b => a < b
  | _, _ => false

/-- The array elements of a field, empty when absent or not an array. -/
def arrField (kvs : List (String × JValue)) (k : String) : List JValue :=
  match lookupJ k kvs with
  | some (.arr xs) => xs
  | _ => []

/-- The ascending-order loop of `validateFunction`: one error per adjacent
domain pair that is out of order. -/
def ascendingErrs (key : String) (domain : List JValue) : List VErr :=
  (domain.zip domain.tail).filterMap fun p =>
    if jLt p.2 p.1 then some ⟨key ++ ".domain", "domain elements must be in ascending order"⟩
    else none

/-- Is the function type this string? (`functionType === '...'`). -/
def ftIs (ft : JValue) (s : String) : Bool :=
  match ft with
  | .str s2 => s2 == s
  | _ => false

/-- `validateFunction` of `lib/validate/validate_function.js`.  The results
of the external `validateObject` and `validateArray` calls are taken as
arguments (`vObjErrs`, `vArrErrs`); `discreteOutput` is
`valueSpec['function-output'] === 'discrete'`.  The function-type default
is `exponential`; a discrete-output property must not use an exponential
function; object errors are appended and, when present, returned at once
(the later checks are skipped); otherwise the domain/range arity check, the
ascending-domain check and the range element validation accumulate. -/
def validateFunction (vObjErrs vArrErrs : List VErr) (discreteOutput : Bool)
    (key : String) (kvs : List (String × JValue)) : List VErr :=
  let t := (lookupJ "type" kvs).getD .null
  let ft : JValue := if jTruthy t then t else .str "exponential"
  let typeErrs :=
    if discreteOutput && ftIs ft "exponential" then
      [⟨key ++ ".type", "function type must be categorical or interval for this style property"⟩]
    else []
  let errs1 := typeErrs ++ vObjErrs
  if vObjErrs ≠ [] then errs1
  else
    let domain := arrField kvs "domain"
    let range := arrField kvs "range"
    let arityErrs :=
      if !ftIs ft "interval" && range.length != domain.length then
        [⟨key, "domain and range must have equal number of elements"⟩]
      else if ftIs ft "interval" && range.length != domain.length + 1 then
        [⟨key, "range must have one more element than domain"⟩]
      else []
    let ascErrs :=
      if ftIs ft "exponential" || ftIs ft "interval" then ascendingErrs key domain
      else []
    errs1 ++ arityErrs ++ ascErrs ++ vArrErrs

/-- `value[0] === '@'` on a string: does it start with the constant-reference
sigil? -/
def headIsAt (s : String) : Bool :=
  match s.data with
  | c :: _ => c == '@'
  | [] => false

/-- Is this element the string `$type`? (loose `== '$type'` of the source,
which only a string can satisfy). -/
def isDollarType : Option JValue → Bool
  | some (.str s) => s == "$type"
  | _ => false

/-- `validateSimpleFilter` of the filter validator: checks the property
key operand (a non-constant string) and each value operand (an enum of
geometry types when the key is `$type`, otherwise a non-constant string,
number, boolean or null). -/
def validateSimpleFilter (geoms : List String) (key : String) (elems : List JValue) : List VErr :=
  let keyErrs :=
    if elems.length ≥ 2 then
      match elems.get? 1 with
      | some (.str s) =>
        if headIsAt s then [⟨key ++ "[1]", "filter key cannot be a constant"⟩] else []
      | some v => [⟨key ++ "[1]", "string expected, " ++ getTypeJ v ++ " found"⟩]
      | none => []
    else []
  let isTypeKey :=
    match elems.get? 1 with
    | some (.str s) => s == "$type"
    | _ => false
  let valErrs :=
    (elems.drop 2).enum.flatMap fun p =>
      let ix := key ++ "[" ++ natKey (p.1 + 2) ++ "]"
      if isTypeKey then validateEnumModel ix geoms p.2
      else
        match p.2 with
        | .str s => if headIsAt s then [⟨ix, "filter value cannot be a constant"⟩] else []
        | .num _ => []
        | .bool _ => []
        | .null => []
        | v => [⟨ix, "string, number, boolean, or null expected, " ++ getTypeJ v ++ " found"⟩]
  keyErrs ++ valErrs

mutual

/-- Node count of a JSON value (every node and list link counts), a bound
on the recursion depth of the filter validator used as its fuel. -/
def jNodes : JValue → Nat
  | .arr xs => jNodesList xs + 1
  | .obj fs => jNodesFields fs + 1
  | _ => 1

/-- Node count of a list of JSON values. -/
def jNodesList : List JValue → Nat
  | [] => 1
  | x :: xs => jNodes x + jNodesList xs + 1

/-- Node count of an object's fields. -/
def jNodesFields : List (String × JValue) → Nat
  | [] => 1
  | (_, v) :: rest => jNodes v + jNodesFields rest + 1

end

/-- The filter validator of the source: a filter must be a non-empty array;
its operator is validated against the `filter_operator` enum (`ops`);
comparison operators reject a `$type` key and demand three elements,
equality operators demand three elements, `has` operators demand two;
`any`/`all`/`none` recurse into each operand (the `for` loop over
`value[i]` becomes a `flatMap` over the indexed operands); every case
accumulates its errors onto the ones already found.  The fuel only forces
termination; `validateFilterJ` supplies the node count, which strictly
bounds the nesting depth. -/
def validateFilterF (ops geoms : List String) : Nat → String → JValue → List VErr
  | 0, _, _ => []
  | _ + 1, key, .arr [] => [⟨key, "filter array must have at least 1 element"⟩]
  | f + 1, key, .arr (op :: rest) =>
    let elems := op :: rest
    let enumErrs := validateEnumModel (key ++ "[0]") ops op
    match op with
    | .str s =>
      if s == "<" || s == "<=" || s == ">" || s == ">=" then
        let typeKeyErrs :=
          if elems.length ≥ 2 && isDollarType elems[1]? then
            [⟨key, "the type key cannot be used with a comparison operator"⟩]
          else []
        let lenErrs :=
          if elems.length != 3 then
            [⟨key, "filter array for a comparison operator must have 3 elements"⟩]
          else []
        enumErrs ++ typeKeyErrs ++ lenErrs ++ validateSimpleFilter geoms key elems
      else if s == "==" || s == "!=" then
        let lenErrs :=
          if elems.length != 3 then
            [⟨key, "filter array for an equality operator must have 3 elements"⟩]
          else []
        enumErrs ++ lenErrs ++ validateSimpleFilter geoms key elems
      else if s == "in" || s == "!in" then
        enumErrs ++ validateSimpleFilter geoms key elems
      else if s == "has" || s == "!has" then
        let lenErrs :=
          if elems.length != 2 then
            [⟨key, "a has filter must have exactly 1 operand"⟩]
          else []
        enumErrs ++ lenErrs ++ validateSimpleFilter geoms key elems
      else if s == "any" || s == "all" || s == "none" then
        enumErrs ++ rest.enum.flatMap fun p =>
          validateFilterF ops geoms f (key ++ "[" ++ natKey (p.1 + 1) ++ "]") p.2
      else enumErrs
    | _ => enumErrs
  | _ + 1, key, v => [⟨key, "array expected, " ++ getTypeJ v ++ " found"⟩]

/-- The filter validator entry point: `validateFilter(options)` of the
source, with the operator and geometry enums of the schema model as
arguments. -/
def validateFilterJ (ops geoms : List String) (key : String) (v : JValue) : List VErr :=
  validateFilterF ops geoms (jNodes v) key v

/-- The `filter_operator` enum of the schema model, as the specification's
data model enumerates it. -/
def filterOperators : List String :=
  ["==", "!=", ">", ">=", "<", "<=", "in", "!in", "has", "!has", "all", "any", "none"]

/-! ## Helper lemmas -/

theorem lookupJ_append (k : String) (A B : List (String × JValue)) :
    lookupJ k (A ++ B) =
      match lookupJ k A with
      | some v => some v
      | none => lookupJ k B := by
  induction A with
  | nil => rfl
  | cons kv rest ih => by_cases h : kv.1 = k <;> simp [lookupJ, h, ih]

theorem lookupJ_map_override (k : String) (dest source : List (String × JValue)) :
    lookupJ k (dest.map fun kv => (kv.1, (lookupJ kv.1 source).getD kv.2)) =
      (lookupJ k dest).map fun v => (lookupJ k source).getD v := by
  induction dest with
  | nil => rfl
  | cons kv rest ih => by_cases h : kv.1 = k <;> simp [lookupJ, h, ih]

theorem lookupJ_filter_not_has (k : String) (dest source : List (String × JValue))
    (h : hasKeyJ k dest = false) :
    lookupJ k (source.filter fun kv => !hasKeyJ kv.1 dest) = lookupJ k source := by
  induction source with
  | nil => rfl
  | cons kv rest ih =>
    by_cases h1 : kv.1 = k
    · subst h1; simp [lookupJ, h, List.filter]
    · by_cases h2 : hasKeyJ kv.1 dest <;> simp [lookupJ, h1, h2, ih, List.filter]

/-- Lookup through `extend(dest, source)`: `source` wins where both have
the key; otherwise whichever has it. -/
theorem lookupJ_extendFields (k : String) (dest source : List (String × JValue)) :
    lookupJ k (extendFields dest source) =
      match lookupJ k dest with
      | some v => some ((lookupJ k source).getD v)
      | none => lookupJ k source := by
  unfold extendFields
  rw [lookupJ_append, lookupJ_map_override]
  cases hd : lookupJ k dest with
  | some v => rfl
  | none =>
    have hk : hasKeyJ k dest = false := by simp [hasKeyJ, hd]
    simp [lookupJ_filter_not_has k dest source hk]

/-- The stop inputs of `{stops: [[d, r], ...]}` are the first components. -/
theorem stops_comp_fst :
    ((fun e => stopNth e 0) ∘ fun p : JValue × JValue => JValue.arr [p.1, p.2]) = Prod.fst := by
  funext p
  rfl

/-- The stop outputs of `{stops: [[d, r], ...]}` are the second components. -/
theorem stops_comp_snd :
    ((fun e => stopNth e 1) ∘ fun p : JValue × JValue => JValue.arr [p.1, p.2]) = Prod.snd := by
  funext p
  rfl

/-- The interval rewrite of `migrateFunction` on a `{stops, base?}` value,
computed in closed form. -/
theorem migrateFunction_interval_eq (stops : List (JValue × JValue)) (base : Option JValue) :
    migrateFunction true (mkStopsFn stops base) =
      .obj [("domain", .arr ((stops.map Prod.fst).drop 1)),
            ("range", .arr (stops.map Prod.snd)),
            ("type", .str "interval")] := by
  cases base <;>
    simp [migrateFunction, mkStopsFn, lookupJ, jTruthy, List.filter,
      List.map_map, stops_comp_fst, stops_comp_snd]

/-- The exponential rewrite of `migrateFunction` on a `{stops, base?}`
value, computed in closed form: `base` stays. -/
theorem migrateFunction_exponential_eq (stops : List (JValue × JValue)) (base : Option JValue) :
    migrateFunction false (mkStopsFn stops base) =
      .obj ((match base with | some b => [("base", b)] | none => []) ++
        [("domain", .arr (stops.map Prod.fst)),
         ("range", .arr (stops.map Prod.snd)),
         ("type", .str "exponential")]) := by
  cases base <;>
    simp [migrateFunction, mkStopsFn, lookupJ, jTruthy, List.filter,
      List.map_map, stops_comp_fst, stops_comp_snd]

/-! ## Observations on operation lists -/

/-- The ids of the `removeLayer` operations in a list, in order. -/
def removeLayerIds (ops : List Op) : List String :=
  ops.filterMap fun op =>
    match op with
    | .removeLayer i => some i
    | _ => none

/-- The `(layer, anchor)` argument pairs of the `addLayer` operations in a
list, in order. -/
def addLayerArgs (ops : List Op) : List (Layer × Option String) :=
  ops.filterMap fun op =>
    match op with
    | .addLayer l anch => some (l, anch)
    | _ => none

/-- The id of the layer immediately following the layer with the given id,
`none` when that layer is last (or absent). -/
def nextIdAfter : List Layer → String → Option String
  | [], _ => none
  | [_], _ => none
  | x :: y :: rest, i => if x.id = i then some y.id else nextIdAfter (y :: rest) i

/-- Does this operation update (paint, layout, filter, zoom range of) the
layer with the given id? -/
def opUpdatesLayer (i : String) : Op → Bool
  | .setPaintProperty i2 _ _ _ => i2 == i
  | .setLayoutProperty i2 _ _ _ => i2 == i
  | .setFilter i2 _ => i2 == i
  | .setLayerZoomRange i2 _ _ => i2 == i
  | _ => false

/-- Every operation of the source diff is a `removeSource` or an
`addSource`. -/
theorem sourceOps_shape (bs asrc : List (String × JValue)) :
    ∀ op ∈ sourceOps bs asrc,
      (∃ i, op = Op.removeSource i) ∨ ∃ i v, op = Op.addSource i v := by
  intro op hop
  rcases List.mem_append.1 hop with h | h <;>
    rcases List.mem_filterMap.1 h with ⟨kv, _, hkv⟩ <;> split at hkv
  · simp at hkv
  · exact Or.inl ⟨kv.1, (Option.some.inj hkv).symm⟩
  · simp at hkv
  · exact Or.inr ⟨kv.1, kv.2, (Option.some.inj hkv).symm⟩

/-- Every operation of the removal pass is a `removeLayer`. -/
theorem removalOps_shape (bls : List Layer) (aIds : List String) :
    ∀ op ∈ removalOps bls aIds, ∃ i, op = Op.removeLayer i := by
  intro op hop
  rcases List.mem_filterMap.1 hop with ⟨l, _, hl⟩
  split at hl
  · simp at hl
  · split at hl
    · split at hl
      · exact ⟨l.id, (Option.some.inj hl).symm⟩
      · simp at hl
    · exact ⟨l.id, (Option.some.inj hl).symm⟩

/-- Every operation of the move/addition pass is a `removeLayer` or an
`addLayer`, and in either case its layer comes from the scanned list. -/
theorem movePass_shape (bIds : List String) :
    ∀ (rest : List Layer) (j : Nat) (tr : List String),
      ∀ op ∈ movePass bIds rest j tr,
        (∃ l ∈ rest, op = Op.removeLayer l.id) ∨
          ∃ l ∈ rest, ∃ anch, op = Op.addLayer l anch := by
  intro rest
  induction rest with
  | nil => intro j tr op hop; simp [movePass] at hop
  | cons l rest ih =>
    intro j tr op hop
    rw [movePass] at hop
    split at hop
    · rcases ih (j + 1) tr op hop with ⟨l2, h2, rfl⟩ | ⟨l2, h2, anch, rfl⟩
      · exact Or.inl ⟨l2, List.mem_cons_of_mem _ h2, rfl⟩
      · exact Or.inr ⟨l2, List.mem_cons_of_mem _ h2, anch, rfl⟩
    · rcases List.mem_append.1 hop with h | h
      · split at h
        · rcases List.mem_singleton.1 h with rfl
          exact Or.inl ⟨l, List.mem_cons_self _ _, rfl⟩
        · simp at h
      · rcases List.mem_cons.1 h with rfl | h
        · exact Or.inr ⟨l, List.mem_cons_self _ _, _, rfl⟩
        · rcases ih _ _ op h with ⟨l2, h2, rfl⟩ | ⟨l2, h2, anch, rfl⟩
          · exact Or.inl ⟨l2, List.mem_cons_of_mem _ h2, rfl⟩
          · exact Or.inr ⟨l2, List.mem_cons_of_mem _ h2, anch, rfl⟩

/-- Every operation the per-key property diff emits is produced by its
`emit` function. -/
theorem diffProps_shape (emit : String → Option JValue → Op) (bp ap : Props) :
    ∀ op ∈ diffProps emit bp ap, ∃ k v, op = emit k v := by
  intro op hop
  rcases List.mem_append.1 hop with h | h <;>
    rcases List.mem_filterMap.1 h with ⟨kv, _, hkv⟩
  · split at hkv
    · split at hkv
      · simp at hkv
      · exact ⟨kv.1, _, (Option.some.inj hkv).symm⟩
    · exact ⟨kv.1, none, (Option.some.inj hkv).symm⟩
  · split at hkv
    · simp at hkv
    · exact ⟨kv.1, _, (Option.some.inj hkv).symm⟩

/-- Every operation of the update pass for one layer updates that layer. -/
theorem updateLayerOps_shape (bl al : Layer) :
    ∀ op ∈ updateLayerOps bl al, opUpdatesLayer al.id op = true := by
  intro op hop
  unfold updateLayerOps at hop
  rcases List.mem_append.1 hop with h | h
  · rcases List.mem_append.1 h with h | h
    · rcases List.mem_append.1 h with h | h
      · rcases List.mem_append.1 h with h | h
        · rcases diffProps_shape _ _ _ op h with ⟨k, v, rfl⟩
          simp [opUpdatesLayer]
        · rcases List.mem_flatMap.1 h with ⟨c, _, hc⟩
          rcases diffProps_shape _ _ _ op hc with ⟨k, v, rfl⟩
          simp [opUpdatesLayer]
      · rcases diffProps_shape _ _ _ op h with ⟨k, v, rfl⟩
        simp [opUpdatesLayer]
    · split at h
      · simp at h
      · rcases List.mem_singleton.1 h with rfl
        simp [opUpdatesLayer]
  · split at h
    · simp at h
    · rcases List.mem_singleton.1 h with rfl
      simp [opUpdatesLayer]

/-- Every operation of the update pass updates some surviving layer. -/
theorem updatePass_shape (bls als : List Layer) (moved : List String) :
    ∀ op ∈ updatePass bls als moved, ∃ i, opUpdatesLayer i op = true := by
  intro op hop
  rcases List.mem_flatMap.1 hop with ⟨al, _, h⟩
  split at h
  · simp at h
  · split at h
    · exact ⟨al.id, updateLayerOps_shape _ al op h⟩
    · simp at h

/-- `removeLayerIds` distributes over concatenation. -/
theorem removeLayerIds_append (A B : List Op) :
    removeLayerIds (A ++ B) = removeLayerIds A ++ removeLayerIds B := by
  unfold removeLayerIds
  exact List.filterMap_append A B _

/-- `addLayerArgs` distributes over concatenation. -/
theorem addLayerArgs_append (A B : List Op) :
    addLayerArgs (A ++ B) = addLayerArgs A ++ addLayerArgs B := by
  unfold addLayerArgs
  exact List.filterMap_append A B _

/-- The source diff removes no layers. -/
theorem removeLayerIds_sourceOps (bs asrc : List (String × JValue)) :
    removeLayerIds (sourceOps bs asrc) = [] := by
  rw [removeLayerIds, List.filterMap_eq_nil_iff]
  intro op hop
  rcases sourceOps_shape bs asrc op hop with ⟨i, rfl⟩ | ⟨i, v, rfl⟩ <;> rfl

/-- The update pass removes no layers. -/
theorem removeLayerIds_updatePass (bls als : List Layer) (moved : List String) :
    removeLayerIds (updatePass bls als moved) = [] := by
  rw [removeLayerIds, List.filterMap_eq_nil_iff]
  intro op hop
  rcases updatePass_shape bls als moved op hop with ⟨i, hi⟩
  cases op <;> first | rfl | simp [opUpdatesLayer] at hi

/-- Is a `before` layer one the removal pass emits a `removeLayer` for:
absent from `after`, and its `ref` target (if any) still present? -/
def removedWithRemoveLayer (aIds : List String) (l : Layer) : Bool :=
  !aIds.contains l.id &&
    (match l.ref with
     | some r => aIds.contains r
     | none => true)

/-- The removal pass removes exactly the `before` layers that are absent
from `after` and whose `ref` target, if any, survives. -/
theorem removeLayerIds_removalOps (bls : List Layer) (aIds : List String) :
    removeLayerIds (removalOps bls aIds) =
      (bls.filter (removedWithRemoveLayer aIds)).map Layer.id := by
  induction bls with
  | nil => rfl
  | cons l rest ih =>
    by_cases hc : aIds.contains l.id
    · simp only [removalOps, removeLayerIds, List.filterMap_cons, List.filter_cons,
        removedWithRemoveLayer] at ih ⊢
      simp only [hc, if_true, Bool.not_true, Bool.false_and, Bool.false_eq_true, if_false]
      exact ih
    · cases hr : l.ref with
      | none =>
        simp only [removalOps, removeLayerIds, List.filterMap_cons, List.filter_cons,
          removedWithRemoveLayer] at ih ⊢
        simp only [hc, if_false, hr, Bool.not_false, Bool.true_and, if_true,
          Bool.false_eq_true, List.map_cons, List.filterMap_cons]
        exact congrArg (l.id :: ·) ih
      | some r =>
        by_cases hcr : aIds.contains r
        · simp only [removalOps, removeLayerIds, List.filterMap_cons, List.filter_cons,
            removedWithRemoveLayer] at ih ⊢
          simp only [hc, if_false, hr, hcr, if_true, Bool.not_false, Bool.true_and,
            List.map_cons, List.filterMap_cons]
          exact congrArg (l.id :: ·) ih
        · simp only [removalOps, removeLayerIds, List.filterMap_cons, List.filter_cons,
            removedWithRemoveLayer] at ih ⊢
          simp only [hc, if_false, hr, hcr, Bool.not_false, Bool.true_and,
            Bool.false_eq_true]
          exact ih

/-- Every id the move/addition pass removes belongs to a scanned (`after`)
layer. -/
theorem removeLayerIds_movePass_mem (bIds : List String) (rest : List Layer)
    (j : Nat) (tr : List String) :
    ∀ i ∈ removeLayerIds (movePass bIds rest j tr), ∃ l ∈ rest, i = l.id := by
  intro i hi
  rcases List.mem_filterMap.1 hi with ⟨op, hop, hmatch⟩
  rcases movePass_shape bIds rest j tr op hop with ⟨l, hl, rfl⟩ | ⟨l, hl, anch, rfl⟩
  · exact ⟨l, hl, (Option.some.inj hmatch).symm⟩
  · simp at hmatch

/-- A conditional single camera/light operation removes no layers. -/
theorem removeLayerIds_ite (c : Prop) [Decidable c] (op : Op)
    (h : ∀ i, op ≠ Op.removeLayer i) :
    removeLayerIds (if c then [] else [op]) = [] := by
  split
  · rfl
  · cases op <;> first | rfl | exact absurd rfl (h _)

/-- `contains` on id lists is membership. -/
theorem contains_iff_mem (xs : List String) (x : String) :
    xs.contains x = true ↔ x ∈ xs := by
  simp

/-- Among the layer removals of a whole diff, those whose layer is absent
from `after` are exactly the removal pass's: one per `before` layer absent
from `after` whose `ref` target, if any, survives (the move pass only ever
removes layers still present in `after`, and no other pass removes
layers). -/
theorem removeLayerIds_diff (b a : StyleDoc) (hv : b.version = a.version) :
    (removeLayerIds (diffStyles b a)).filter (fun i => !(idsOf a.layers).contains i) =
      (b.layers.filter (removedWithRemoveLayer (idsOf a.layers))).map Layer.id := by
  unfold diffStyles
  rw [if_neg (by simp [hv])]
  unfold layerPass
  simp only [removeLayerIds_append]
  rw [removeLayerIds_sourceOps, removeLayerIds_removalOps, removeLayerIds_updatePass,
    removeLayerIds_ite _ _ (fun i => Op.noConfusion),
    removeLayerIds_ite _ _ (fun i => Op.noConfusion),
    removeLayerIds_ite _ _ (fun i => Op.noConfusion),
    removeLayerIds_ite _ _ (fun i => Op.noConfusion),
    removeLayerIds_ite _ _ (fun i => Op.noConfusion)]
  simp only [List.filter_append]
  have hrem : ((b.layers.filter (removedWithRemoveLayer (idsOf a.layers))).map
      Layer.id).filter (fun i => !(idsOf a.layers).contains i) =
      (b.layers.filter (removedWithRemoveLayer (idsOf a.layers))).map Layer.id := by
    rw [List.filter_eq_self]
    intro i hi
    rcases List.mem_map.1 hi with ⟨l, hl, rfl⟩
    have hp := (List.mem_filter.1 hl).2
    simp only [removedWithRemoveLayer, Bool.and_eq_true] at hp
    show (!(idsOf a.layers).contains l.id) = true
    exact hp.1
  have hmv : (removeLayerIds (movePass (idsOf b.layers) a.layers.reverse 0
      ((idsOf b.layers).filter fun i => (idsOf a.layers).contains i))).filter
      (fun i => !(idsOf a.layers).contains i) = [] := by
    rw [List.filter_eq_nil_iff]
    intro i hi
    rcases removeLayerIds_movePass_mem _ _ _ _ i hi with ⟨l, hl, rfl⟩
    have hm : l.id ∈ idsOf a.layers :=
      List.mem_map_of_mem Layer.id (List.mem_reverse.1 hl)
    simp [hm]
  rw [hrem, hmv]
  simp

/-- Splicing at the boundary between two list halves. -/
theorem insertAtS_append (A B : List String) (x : String) :
    insertAtS (A ++ B) A.length x = A ++ x :: B := by
  induction A with
  | nil => simp [insertAtS]
  | cons a A2 ih => simp [insertAtS, ih]

/-- `nextIdAfter` finds the successor of a layer right after the first
half, provided the first half does not contain its id. -/
theorem nextIdAfter_append (A : List Layer) (l : Layer) (D : List Layer)
    (h : l.id ∉ idsOf A) :
    nextIdAfter (A ++ l :: D) l.id = (idsOf D).head? := by
  induction A with
  | nil =>
    cases D with
    | nil => rfl
    | cons d D2 => simp [nextIdAfter, idsOf]
  | cons a A2 ih =>
    have ha : a.id ≠ l.id := by
      intro he
      exact h (by simp [idsOf, he])
    have h2 : l.id ∉ idsOf A2 := by
      intro hm
      exact h (by simp [idsOf] at hm ⊢; exact Or.inr hm)
    cases hX : A2 ++ l :: D with
    | nil => simp at hX
    | cons x rest =>
      rw [List.cons_append, hX, nextIdAfter, if_neg ha, ← hX, ih h2]

/-- Every `addLayer` of the move/addition pass adds a scanned layer. -/
theorem addLayerArgs_movePass_mem (bIds : List String) (rest : List Layer)
    (j : Nat) (tr : List String) :
    ∀ p ∈ addLayerArgs (movePass bIds rest j tr), p.1 ∈ rest := by
  intro p hp
  rcases List.mem_filterMap.1 hp with ⟨op, hop, hmatch⟩
  rcases movePass_shape bIds rest j tr op hop with ⟨l, hl, rfl⟩ | ⟨l, hl, anch, rfl⟩
  · simp at hmatch
  · rcases Option.some.inj hmatch with rfl
    exact hl

/-- The source diff adds no layers. -/
theorem addLayerArgs_sourceOps (bs asrc : List (String × JValue)) :
    addLayerArgs (sourceOps bs asrc) = [] := by
  rw [addLayerArgs, List.filterMap_eq_nil_iff]
  intro op hop
  rcases sourceOps_shape bs asrc op hop with ⟨i, rfl⟩ | ⟨i, v, rfl⟩ <;> rfl

/-- The removal pass adds no layers. -/
theorem addLayerArgs_removalOps (bls : List Layer) (aIds : List String) :
    addLayerArgs (removalOps bls aIds) = [] := by
  rw [addLayerArgs, List.filterMap_eq_nil_iff]
  intro op hop
  rcases removalOps_shape bls aIds op hop with ⟨i, rfl⟩
  rfl

/-- The update pass adds no layers. -/
theorem addLayerArgs_updatePass (bls als : List Layer) (moved : List String) :
    addLayerArgs (updatePass bls als moved) = [] := by
  rw [addLayerArgs, List.filterMap_eq_nil_iff]
  intro op hop
  rcases updatePass_shape bls als moved op hop with ⟨i, hi⟩
  cases op <;> first | rfl | simp [opUpdatesLayer] at hi

/-- A conditional single camera/light operation adds no layers. -/
theorem addLayerArgs_ite (c : Prop) [Decidable c] (op : Op)
    (h : ∀ l anch, op ≠ Op.addLayer l anch) :
    addLayerArgs (if c then [] else [op]) = [] := by
  split
  · rfl
  · cases op <;> first | rfl | exact absurd rfl (h _ _)

/-- The core invariant of the move/addition pass, by induction over the
reversed `after` list.  With `done` already processed, the tracker is
`head ++ idsOf done`: its tail holds exactly the processed `after` ids in
order and its head only ids of `before` layers.  Then (1) every emitted
`addLayer` is anchored on the id of the layer that follows it in `after`
(`none` for the last layer), and (2) every scanned layer absent from
`before` is added exactly once. -/
theorem movePass_aux (bIds : List String) (als : List Layer)
    (hnd : (idsOf als).Nodup) :
    ∀ (rest done : List Layer) (head : List String),
      als = rest.reverse ++ done →
      (∀ x ∈ head, x ∈ bIds) →
      (∀ l anch,
        Op.addLayer l anch ∈ movePass bIds rest done.length (head ++ idsOf done) →
          anch = nextIdAfter als l.id) ∧
      (∀ l ∈ rest, l.id ∉ bIds →
        ((addLayerArgs (movePass bIds rest done.length (head ++ idsOf done))).filter
          (fun p => p.1.id == l.id)).length = 1) := by
  intro rest
  induction rest with
  | nil =>
    intro done head _ _
    exact ⟨fun l anch h => by simp [movePass] at h, fun l hl => by simp at hl⟩
  | cons l0 rest2 ih =>
    intro done head hals hsub
    have hals2 : als = rest2.reverse ++ (l0 :: done) := by
      rw [hals, List.reverse_cons, List.append_assoc, List.singleton_append]
    have hids : idsOf als = idsOf rest2.reverse ++ (l0.id :: idsOf done) := by
      rw [hals2]
      simp [idsOf]
    have hnd2 : (idsOf rest2.reverse ++ (l0.id :: idsOf done)).Nodup := hids ▸ hnd
    have hnotA : l0.id ∉ idsOf rest2.reverse := fun hm =>
      (List.disjoint_of_nodup_append hnd2) hm (List.mem_cons_self _ _)
    have hnotR : l0.id ∉ idsOf rest2 := by
      intro hm
      exact hnotA (by simpa [idsOf] using hm)
    have hnotD : l0.id ∉ idsOf done :=
      (List.nodup_cons.1 (List.nodup_append.1 hnd2).2.1).1
    simp only [movePass]
    by_cases hcond : (decide (done.length < (head ++ idsOf done).length) &&
        ((head ++ idsOf done)[(head ++ idsOf done).length - 1 - done.length]? ==
          some l0.id)) = true
    · rw [if_pos hcond]
      have hand := hcond
      rw [Bool.and_eq_true] at hand
      have hlt : done.length < (head ++ idsOf done).length := of_decide_eq_true hand.1
      have hhead : head ≠ [] := by
        intro h0
        rw [h0] at hlt
        simp [idsOf] at hlt
      obtain ⟨h2, x, hcat⟩ := (List.eq_nil_or_concat head).resolve_left hhead
      rw [List.concat_eq_append] at hcat
      subst hcat
      have hidx : ((h2 ++ [x]) ++ idsOf done).length - 1 - done.length = h2.length := by
        simp [idsOf]
      have hx : x = l0.id := by
        have hbe := hand.2
        rw [hidx] at hbe
        have hsome : ((h2 ++ [x]) ++ idsOf done)[h2.length]? = some l0.id := eq_of_beq hbe
        rw [List.append_assoc, List.getElem?_append_right (le_refl _), Nat.sub_self,
          List.cons_append, List.getElem?_cons_zero] at hsome
        exact Option.some.inj hsome
      subst hx
      have hTr : (h2 ++ [l0.id]) ++ idsOf done = h2 ++ idsOf (l0 :: done) := by
        simp [idsOf]
      have hsub2 : ∀ y ∈ h2, y ∈ bIds := fun y hy => hsub y (List.mem_append_left _ hy)
      have IH := ih (l0 :: done) h2 hals2 hsub2
      constructor
      · intro l anch hm
        rw [hTr] at hm
        exact IH.1 l anch hm
      · intro l hl hnb
        rcases List.mem_cons.1 hl with rfl | hl2
        · exact absurd (hsub l.id (by simp)) hnb
        · rw [hTr]
          exact IH.2 l hl2 hnb
    · rw [if_neg hcond]
      obtain ⟨head2, hEq, hsub2⟩ :
          ∃ h2, (if bIds.contains l0.id then (head ++ idsOf done).erase l0.id
                  else head ++ idsOf done) = h2 ++ idsOf done ∧ ∀ y ∈ h2, y ∈ bIds := by
        by_cases hm : bIds.contains l0.id
        · by_cases hh : l0.id ∈ head
          · exact ⟨head.erase l0.id, by rw [if_pos hm, List.erase_append_left _ hh],
              fun y hy => hsub y (List.mem_of_mem_erase hy)⟩
          · exact ⟨head, by rw [if_pos hm, List.erase_append_right _ hh,
              List.erase_of_not_mem hnotD], hsub⟩
        · exact ⟨head, by rw [if_neg hm], hsub⟩
      rw [hEq]
      have hidx2 : (head2 ++ idsOf done).length - done.length = head2.length := by
        simp [idsOf]
      rw [hidx2]
      have hanchor : (head2 ++ idsOf done)[head2.length]? = (idsOf done).head? := by
        rw [List.getElem?_append_right (le_refl _), Nat.sub_self]
        cases idsOf done <;> simp
      have hins : insertAtS (head2 ++ idsOf done) head2.length l0.id =
          head2 ++ idsOf (l0 :: done) := by
        rw [insertAtS_append]
        simp [idsOf]
      rw [hanchor, hins]
      have IH := ih (l0 :: done) head2 hals2 hsub2
      have hnextl0 : nextIdAfter als l0.id = (idsOf done).head? := by
        rw [hals2, nextIdAfter_append _ _ _ hnotA]
      constructor
      · intro l anch hm
        rcases List.mem_append.1 hm with hpre | hm2
        · split at hpre
          · exact Op.noConfusion (List.mem_singleton.1 hpre)
          · simp at hpre
        · rcases List.mem_cons.1 hm2 with heq | htail
          · injection heq with h1 h2
            subst h1
            rw [h2, hnextl0]
          · exact IH.1 l anch htail
      · intro l hl hnb
        have hpre : addLayerArgs (if bIds.contains l0.id
            then [Op.removeLayer l0.id] else []) = [] := by
          split <;> rfl
        rw [addLayerArgs_append, hpre, List.nil_append]
        have hcons : addLayerArgs (Op.addLayer l0 ((idsOf done).head?) ::
            movePass bIds rest2 (done.length + 1) (head2 ++ idsOf (l0 :: done))) =
            (l0, (idsOf done).head?) ::
              addLayerArgs (movePass bIds rest2 (done.length + 1)
                (head2 ++ idsOf (l0 :: done))) := rfl
        rw [hcons, List.filter_cons]
        rcases List.mem_cons.1 hl with heq | hl2
        · subst heq
          rw [if_pos (by simp)]
          have hzero : (addLayerArgs (movePass bIds rest2 (done.length + 1)
              (head2 ++ idsOf (l :: done)))).filter (fun p => p.1.id == l.id) = [] := by
            rw [List.filter_eq_nil_iff]
            intro p hp
            have hpm := addLayerArgs_movePass_mem _ _ _ _ p hp
            intro hbeq
            have hpe : p.1.id = l.id := by simpa using hbeq
            exact hnotR (hpe ▸ List.mem_map_of_mem Layer.id hpm)
          rw [hzero]
          rfl
        · have hne : ¬((l0.id == l.id) = true) := by
            simp only [beq_iff_eq]
            intro he
            exact hnotR (he ▸ List.mem_map_of_mem Layer.id hl2)
          rw [if_neg (by simpa using hne)]
          exact IH.2 l hl2 hnb

/-- An `addLayer` operation is in a list exactly when its arguments are
among the list's `addLayer` argument pairs. -/
theorem addLayer_mem_iff (ops : List Op) (l : Layer) (anch : Option String) :
    Op.addLayer l anch ∈ ops ↔ (l, anch) ∈ addLayerArgs ops := by
  induction ops with
  | nil => simp [addLayerArgs]
  | cons op rest ih =>
    cases op <;>
      first
        | (refine ⟨fun h => ?_, fun h => List.mem_cons_of_mem _ (ih.2 h)⟩
           rcases List.mem_cons.1 h with heq | h2
           · exact Op.noConfusion heq
           · exact ih.1 h2)
        | (rename_i l2 a2
           rw [show addLayerArgs (Op.addLayer l2 a2 :: rest) =
             (l2, a2) :: addLayerArgs rest from rfl]
           simp [List.mem_cons, ih, Prod.mk.injEq])

/-- The `addLayer` operations of a same-version diff are exactly the move
pass's. -/
theorem addLayerArgs_diff (b a : StyleDoc) (hv : b.version = a.version) :
    addLayerArgs (diffStyles b a) =
      addLayerArgs (movePass (idsOf b.layers) a.layers.reverse 0
        ((idsOf b.layers).filter fun i => (idsOf a.layers).contains i)) := by
  unfold diffStyles
  rw [if_neg (by simp [hv])]
  unfold layerPass
  simp only [addLayerArgs_append]
  rw [addLayerArgs_sourceOps, addLayerArgs_removalOps, addLayerArgs_updatePass,
    addLayerArgs_ite _ _ (fun l anch => Op.noConfusion),
    addLayerArgs_ite _ _ (fun l anch => Op.noConfusion),
    addLayerArgs_ite _ _ (fun l anch => Op.noConfusion),
    addLayerArgs_ite _ _ (fun l anch => Op.noConfusion),
    addLayerArgs_ite _ _ (fun l anch => Op.noConfusion)]
  simp

/-- The `(propertyName, value, className)` argument triples of the
`setPaintProperty` operations for one layer id. -/
def setPaintArgsFor (i : String) (ops : List Op) :
    List (String × Option JValue × Option String) :=
  ops.filterMap fun op =>
    match op with
    | .setPaintProperty i2 k v c => if i2 == i then some (k, v, c) else none
    | _ => none

/-- The `(key, newValue)` pairs the per-key property diff produces
(independently of the emitted command). -/
def diffPropsPairs (bp ap : Props) : List (String × Option JValue) :=
  (bp.filterMap fun kv =>
    match lookupJ kv.1 ap with
    | some w => if deq kv.2 w then none else some (kv.1, some w)
    | none => some (kv.1, none)) ++
  (ap.filterMap fun kv =>
    if hasKeyJ kv.1 bp then none else some (kv.1, some kv.2))

/-- Did the value of a key change between two property maps (added,
removed, or deeply different)? -/
def changedKey (bp ap : Props) (k : String) : Bool :=
  match lookupJ k bp, lookupJ k ap with
  | some v, some w => !deq v w
  | some _, none => true
  | none, some _ => true
  | none, none => false

/-- The keys of a property map. -/
def propsKeys (props : Props) : List String := props.map Prod.fst

/-- `setPaintArgsFor` distributes over concatenation. -/
theorem setPaintArgsFor_append (i : String) (A B : List Op) :
    setPaintArgsFor i (A ++ B) = setPaintArgsFor i A ++ setPaintArgsFor i B := by
  unfold setPaintArgsFor
  exact List.filterMap_append A B _

/-- The source diff sets no paint properties. -/
theorem setPaintArgsFor_sourceOps (i : String) (bs asrc : List (String × JValue)) :
    setPaintArgsFor i (sourceOps bs asrc) = [] := by
  rw [setPaintArgsFor, List.filterMap_eq_nil_iff]
  intro op hop
  rcases sourceOps_shape bs asrc op hop with ⟨j, rfl⟩ | ⟨j, v, rfl⟩ <;> rfl

/-- The removal pass sets no paint properties. -/
theorem setPaintArgsFor_removalOps (i : String) (bls : List Layer) (aIds : List String) :
    setPaintArgsFor i (removalOps bls aIds) = [] := by
  rw [setPaintArgsFor, List.filterMap_eq_nil_iff]
  intro op hop
  rcases removalOps_shape bls aIds op hop with ⟨j, rfl⟩
  rfl

/-- The move/addition pass sets no paint properties. -/
theorem setPaintArgsFor_movePass (i : String) (bIds : List String) (rest : List Layer)
    (j : Nat) (tr : List String) :
    setPaintArgsFor i (movePass bIds rest j tr) = [] := by
  rw [setPaintArgsFor, List.filterMap_eq_nil_iff]
  intro op hop
  rcases movePass_shape bIds rest j tr op hop with ⟨l, _, rfl⟩ | ⟨l, _, anch, rfl⟩ <;> rfl

/-- A conditional single camera/light operation sets no paint properties. -/
theorem setPaintArgsFor_ite (i : String) (c : Prop) [Decidable c] (op : Op)
    (h : ∀ i2 k v cl, op ≠ Op.setPaintProperty i2 k v cl) :
    setPaintArgsFor i (if c then [] else [op]) = [] := by
  split
  · rfl
  · cases op <;> first | rfl | exact absurd rfl (h _ _ _ _)

/-- In a same-version diff, the `setPaintProperty` operations for a layer
id come from the update pass alone. -/
theorem setPaintArgsFor_diff (b a : StyleDoc) (hv : b.version = a.version) (i : String) :
    setPaintArgsFor i (diffStyles b a) =
      setPaintArgsFor i (updatePass b.layers a.layers
        (movedOf (movePass (idsOf b.layers) a.layers.reverse 0
          ((idsOf b.layers).filter fun x => (idsOf a.layers).contains x)))) := by
  unfold diffStyles
  rw [if_neg (by simp [hv])]
  unfold layerPass
  simp only [setPaintArgsFor_append]
  rw [setPaintArgsFor_sourceOps, setPaintArgsFor_removalOps, setPaintArgsFor_movePass,
    setPaintArgsFor_ite _ _ _ (fun i2 k v cl => Op.noConfusion),
    setPaintArgsFor_ite _ _ _ (fun i2 k v cl => Op.noConfusion),
    setPaintArgsFor_ite _ _ _ (fun i2 k v cl => Op.noConfusion),
    setPaintArgsFor_ite _ _ _ (fun i2 k v cl => Op.noConfusion),
    setPaintArgsFor_ite _ _ _ (fun i2 k v cl => Op.noConfusion)]
  simp

/-- Update operations of another layer never set this layer's paint. -/
theorem setPaintArgsFor_updateLayerOps_ne (i : String) (bl al : Layer) (h : al.id ≠ i) :
    setPaintArgsFor i (updateLayerOps bl al) = [] := by
  rw [setPaintArgsFor, List.filterMap_eq_nil_iff]
  intro op hop
  have hsh := updateLayerOps_shape bl al op hop
  cases op <;>
    first
      | rfl
      | (rename_i i2 k v c
         have h2 : i2 = al.id := by simpa [opUpdatesLayer] using hsh
         simp [h2, h])

/-- If a layer id never occurs in `after`, the update pass never sets its
paint. -/
theorem setPaintArgsFor_updatePass_absent (i : String) (bls als : List Layer)
    (moved : List String) (h : i ∉ idsOf als) :
    setPaintArgsFor i (updatePass bls als moved) = [] := by
  rw [setPaintArgsFor, List.filterMap_eq_nil_iff]
  intro op hop
  obtain ⟨al, hal, hop2⟩ := List.mem_flatMap.1 hop
  have hne : al.id ≠ i := fun he => h (he ▸ List.mem_map_of_mem Layer.id hal)
  split at hop2
  · simp at hop2
  · split at hop2
    · have hsh := updateLayerOps_shape _ al op hop2
      cases op <;>
        first
          | rfl
          | (rename_i i2 k v c
             have h2 : i2 = al.id := by simpa [opUpdatesLayer] using hsh
             simp [h2, hne])
    · simp at hop2

/-- One step of the update pass. -/
theorem updatePass_cons (bls : List Layer) (al2 : Layer) (rest : List Layer)
    (moved : List String) :
    updatePass bls (al2 :: rest) moved =
      (if moved.contains al2.id then []
       else
         match lookupLayer al2.id bls with
         | some bl2 => updateLayerOps bl2 al2
         | none => []) ++ updatePass bls rest moved := rfl

/-- For a surviving, unmoved layer (unique in `after`), the update pass's
paint operations for its id are exactly its own per-layer update block's. -/
theorem setPaintArgsFor_updatePass_eq (bls : List Layer) (als : List Layer)
    (moved : List String) (al bl : Layer)
    (hnd : (idsOf als).Nodup)
    (hal : lookupLayer al.id als = some al)
    (hbl : lookupLayer al.id bls = some bl)
    (hmv : moved.contains al.id = false) :
    setPaintArgsFor al.id (updatePass bls als moved) =
      setPaintArgsFor al.id (updateLayerOps bl al) := by
  induction als with
  | nil => simp [lookupLayer] at hal
  | cons al2 rest ih =>
    rw [updatePass_cons, setPaintArgsFor_append]
    by_cases he : al2.id = al.id
    · have heq : al2 = al := by
        rw [lookupLayer, if_pos he] at hal
        exact Option.some.inj hal
      subst heq
      have hrest : al2.id ∉ idsOf rest := by
        have h2 : (al2.id :: idsOf rest).Nodup := by
          simpa [idsOf] using hnd
        exact (List.nodup_cons.1 h2).1
      rw [setPaintArgsFor_updatePass_absent _ _ _ _ hrest, List.append_nil]
      rw [if_neg (by rw [hmv]; simp), hbl]
    · have hal2 : lookupLayer al.id rest = some al := by
        rw [lookupLayer, if_neg he] at hal
        exact hal
      have hnd2 : (idsOf rest).Nodup := by
        have h2 : (al2.id :: idsOf rest).Nodup := by
          simpa [idsOf] using hnd
        exact (List.nodup_cons.1 h2).2
      rw [ih hnd2 hal2]
      have hh : setPaintArgsFor al.id
          (if moved.contains al2.id then []
           else
             match lookupLayer al2.id bls with
             | some bl2 => updateLayerOps bl2 al2
             | none => []) = [] := by
        split
        · rfl
        · split
          · exact setPaintArgsFor_updateLayerOps_ne _ _ _ (fun h2 => he h2)
          · rfl
      rw [hh, List.nil_append]

/-- Absent key, no lookup. -/
theorem lookupJ_eq_none_of_not_mem (k : String) (props : Props)
    (h : k ∉ propsKeys props) : lookupJ k props = none := by
  induction props with
  | nil => rfl
  | cons kv rest ih =>
    have h1 : kv.1 ≠ k := fun he => h (by simp [propsKeys, he])
    have h2 : k ∉ propsKeys rest := fun hm => h (by simp [propsKeys] at hm ⊢; exact Or.inr hm)
    rw [lookupJ, if_neg h1]
    exact ih h2

/-- With unique keys, membership determines the lookup. -/
theorem lookupJ_of_mem_nodup (k : String) (v : JValue) (props : Props)
    (hnd : (propsKeys props).Nodup) (hm : (k, v) ∈ props) :
    lookupJ k props = some v := by
  induction props with
  | nil => simp at hm
  | cons kv rest ih =>
    have hnd2 := List.nodup_cons.1 (show (kv.1 :: propsKeys rest).Nodup from hnd)
    rcases List.mem_cons.1 hm with heq | hm2
    · rw [← heq, lookupJ, if_pos rfl]
    · have hk : k ∈ propsKeys rest := by
        simpa [propsKeys] using List.mem_map_of_mem Prod.fst hm2
      have hne : kv.1 ≠ k := fun he => hnd2.1 (he ▸ hk)
      rw [lookupJ, if_neg hne]
      exact ih hnd2.2 hm2

/-- The `before` half of the per-key diff: with unique keys it contributes
one pair for the key exactly when the key's value was removed or changed. -/
theorem diffPropsPairs_count_left (ap : Props) (k : String) :
    ∀ bp : Props, (propsKeys bp).Nodup →
      ((bp.filterMap fun kv =>
        match lookupJ kv.1 ap with
        | some w => if deq kv.2 w then none else some (kv.1, some w)
        | none => some (kv.1, none)).filter (fun p => p.1 == k)).length =
        (match lookupJ k bp with
         | some v =>
           match lookupJ k ap with
           | some w => if deq v w then 0 else 1
           | none => 1
         | none => 0) := by
  intro bp
  induction bp with
  | nil => intro _; rfl
  | cons kv rest ih =>
    intro hnd
    have hnd2 := List.nodup_cons.1 (show (kv.1 :: propsKeys rest).Nodup from hnd)
    rw [List.filterMap_cons]
    by_cases hk : kv.1 = k
    · have hrest : lookupJ k rest = none :=
        lookupJ_eq_none_of_not_mem k rest (hk ▸ hnd2.1)
      have hzero := ih hnd2.2
      rw [hrest] at hzero
      rw [lookupJ, if_pos hk, hk]
      cases hw : lookupJ k ap with
      | some w =>
        by_cases hd : deq kv.2 w
        · simp only [hk, hw, hd, if_true]
          rw [hzero]
        · simp only [hk, hw, hd, if_false, Bool.false_eq_true]
          rw [List.filter_cons, if_pos (by simp)]
          rw [List.length_cons, hzero]
      | none =>
        simp only [hk, hw]
        rw [List.filter_cons, if_pos (by simp)]
        rw [List.length_cons, hzero]
    · have hlk : lookupJ k (kv :: rest) = lookupJ k rest := by
        rw [lookupJ, if_neg hk]
      rw [hlk]
      have htail := ih hnd2.2
      cases hw : lookupJ kv.1 ap with
      | some w =>
        by_cases hd : deq kv.2 w
        · simp only [hw, hd, if_true]
          exact htail
        · simp only [hw, hd, if_false, Bool.false_eq_true]
          rw [List.filter_cons, if_neg (by simp [hk])]
          exact htail
      | none =>
        simp only [hw]
        rw [List.filter_cons, if_neg (by simp [hk])]
        exact htail

/-- The `after` half of the per-key diff: with unique keys it contributes
one pair for the key exactly when the key was added. -/
theorem diffPropsPairs_count_right (bp : Props) (k : String) :
    ∀ ap : Props, (propsKeys ap).Nodup →
      ((ap.filterMap fun kv =>
        if hasKeyJ kv.1 bp then none else some (kv.1, some kv.2)).filter
          (fun p => p.1 == k)).length =
        (match lookupJ k ap with
         | some _ => if hasKeyJ k bp then 0 else 1
         | none => 0) := by
  intro ap
  induction ap with
  | nil => intro _; rfl
  | cons kv rest ih =>
    intro hnd
    have hnd2 := List.nodup_cons.1 (show (kv.1 :: propsKeys rest).Nodup from hnd)
    rw [List.filterMap_cons]
    by_cases hk : kv.1 = k
    · have hrest : lookupJ k rest = none :=
        lookupJ_eq_none_of_not_mem k rest (hk ▸ hnd2.1)
      have hzero := ih hnd2.2
      rw [hrest] at hzero
      rw [lookupJ, if_pos hk]
      by_cases hhas : hasKeyJ kv.1 bp
      · have hhas2 : hasKeyJ k bp = true := hk ▸ hhas
        simp only [hhas, if_true]
        rw [if_pos hhas2]
        exact hzero
      · have hhas2 : ¬hasKeyJ k bp = true := hk ▸ hhas
        simp only [hhas, if_false, Bool.false_eq_true]
        rw [List.filter_cons, if_pos (by simp [hk]), List.length_cons, hzero,
          if_neg hhas2]
    · have hlk : lookupJ k (kv :: rest) = lookupJ k rest := by
        rw [lookupJ, if_neg hk]
      rw [hlk]
      have htail := ih hnd2.2
      by_cases hhas : hasKeyJ kv.1 bp
      · simp only [hhas, if_true]
        exact htail
      · simp only [hhas, if_false, Bool.false_eq_true]
        rw [List.filter_cons, if_neg (by simp [hk])]
        exact htail

/-- With unique keys on both sides, the per-key diff yields exactly one
pair per changed key and none for an unchanged one. -/
theorem diffPropsPairs_count (bp ap : Props)
    (hb : (propsKeys bp).Nodup) (ha : (propsKeys ap).Nodup) (k : String) :
    ((diffPropsPairs bp ap).filter (fun p => p.1 == k)).length =
      if changedKey bp ap k then 1 else 0 := by
  unfold diffPropsPairs changedKey
  rw [List.filter_append, List.length_append,
    diffPropsPairs_count_left ap k bp hb, diffPropsPairs_count_right bp k ap ha]
  cases hbk : lookupJ k bp with
  | some v =>
    have hhas : hasKeyJ k bp = true := by simp [hasKeyJ, hbk]
    cases hak : lookupJ k ap with
    | some w =>
      by_cases hd : deq v w <;> simp [hd, hhas]
    | none => simp [hhas]
  | none =>
    have hhas : hasKeyJ k bp = false := by simp [hasKeyJ, hbk]
    cases hak : lookupJ k ap with
    | some w => simp [hhas]
    | none => simp

/-- Every pair the per-key diff emits carries `after`'s whole value for its
key (`none` when removed). -/
theorem diffPropsPairs_value (bp ap : Props) (ha : (propsKeys ap).Nodup) :
    ∀ p ∈ diffPropsPairs bp ap, p.2 = lookupJ p.1 ap := by
  intro p hp
  rcases List.mem_append.1 hp with h | h <;>
    rcases List.mem_filterMap.1 h with ⟨kv, hkv, hf⟩
  · split at hf
    · split at hf
      · simp at hf
      · rcases Option.some.inj hf with rfl
        simpa using (by assumption : lookupJ kv.1 ap = some _).symm
    · rcases Option.some.inj hf with rfl
      simpa using (by assumption : lookupJ kv.1 ap = none).symm
  · split at hf
    · simp at hf
    · rcases Option.some.inj hf with rfl
      exact (lookupJ_of_mem_nodup kv.1 kv.2 ap ha hkv).symm

/-- The paint-property diff of one class, restricted to its layer, is the
per-key diff tagged with the class. -/
theorem setPaintArgsFor_diffProps_paint (i : String) (c : Option String) (bp ap : Props) :
    setPaintArgsFor i (diffProps (fun k v => Op.setPaintProperty i k v c) bp ap) =
      (diffPropsPairs bp ap).map (fun p => (p.1, p.2, c)) := by
  unfold setPaintArgsFor diffProps diffPropsPairs
  rw [List.filterMap_append, List.map_append, List.filterMap_filterMap,
    List.filterMap_filterMap, List.map_filterMap, List.map_filterMap]
  congr 1
  · apply List.filterMap_congr
    intro kv _
    cases lookupJ kv.1 ap with
    | some w =>
      by_cases hd : deq kv.2 w <;> simp [hd]
    | none => simp
  · apply List.filterMap_congr
    intro kv _
    by_cases hh : hasKeyJ kv.1 bp <;> simp [hh]

/-- The layout diff never sets paint properties. -/
theorem setPaintArgsFor_diffProps_layout (i i2 : String) (c : Option String) (bp ap : Props) :
    setPaintArgsFor i (diffProps (fun k v => Op.setLayoutProperty i2 k v c) bp ap) = [] := by
  rw [setPaintArgsFor, List.filterMap_eq_nil_iff]
  intro op hop
  rcases diffProps_shape _ bp ap op hop with ⟨k, v, rfl⟩
  rfl

/-- Restricting to a layer id distributes over a per-class `flatMap`. -/
theorem setPaintArgsFor_flatMap (i : String) (L : List String) (f : String → List Op) :
    setPaintArgsFor i (L.flatMap f) = L.flatMap fun c => setPaintArgsFor i (f c) := by
  induction L with
  | nil => rfl
  | cons c cs ih =>
    rw [show (c :: cs).flatMap f = f c ++ cs.flatMap f from rfl, setPaintArgsFor_append, ih]
    rfl

/-- The paint operations of one layer's update block, in closed form: the
base-paint per-key diff tagged `none`, then each class's per-key diff
tagged with its name. -/
theorem setPaintArgsFor_updateLayerOps_eq (bl al : Layer) :
    setPaintArgsFor al.id (updateLayerOps bl al) =
      (diffPropsPairs (classProps bl none) (classProps al none)).map
        (fun p => (p.1, p.2, (none : Option String))) ++
      (classNames bl al).flatMap (fun c =>
        (diffPropsPairs (classProps bl (some c)) (classProps al (some c))).map
          (fun p => (p.1, p.2, some c))) := by
  unfold updateLayerOps
  simp only [setPaintArgsFor_append]
  rw [setPaintArgsFor_diffProps_paint, setPaintArgsFor_diffProps_layout,
    setPaintArgsFor_flatMap,
    setPaintArgsFor_ite _ _ _ (fun i2 k v cl => Op.noConfusion),
    setPaintArgsFor_ite _ _ _ (fun i2 k v cl => Op.noConfusion)]
  simp only [List.append_nil]
  have hfun : (fun c => setPaintArgsFor al.id
      (diffProps (fun k v => Op.setPaintProperty al.id k v (some c))
        (classProps bl (some c)) (classProps al (some c)))) =
      (fun c => (diffPropsPairs (classProps bl (some c)) (classProps al (some c))).map
        (fun p => (p.1, p.2, some c))) :=
    funext fun c => setPaintArgsFor_diffProps_paint al.id (some c) _ _
  rw [hfun]

/-- Filtering the per-class paint pairs for one class selects exactly that
class's block (classes occurring once). -/
theorem flatMap_class_count (L : List String) (hnd : L.Nodup) (cname k : String)
    (F : String → List (String × Option JValue)) :
    ((L.flatMap fun c => (F c).map (fun p => (p.1, p.2, some c))).filter
      (fun t => t.1 == k && t.2.2 == some cname)).length =
      if cname ∈ L then ((F cname).filter (fun p => p.1 == k)).length else 0 := by
  induction L with
  | nil => simp
  | cons c cs ih =>
    have hnd2 := List.nodup_cons.1 hnd
    rw [show ((c :: cs).flatMap fun c => (F c).map (fun p => (p.1, p.2, some c))) =
      (F c).map (fun p => (p.1, p.2, some c)) ++
        (cs.flatMap fun c => (F c).map (fun p => (p.1, p.2, some c))) from rfl]
    rw [List.filter_append, List.length_append, ih hnd2.2]
    by_cases hc : c = cname
    · subst hc
      rw [if_neg hnd2.1, if_pos (List.mem_cons_self _ _), Nat.add_zero]
      rw [List.filter_map, List.length_map]
      congr 1
      apply List.filter_congr
      intro p _
      simp [Function.comp]
    · have hzero : ((F c).map (fun p => (p.1, p.2, some c))).filter
          (fun t => t.1 == k && t.2.2 == some cname) = [] := by
        rw [List.filter_eq_nil_iff]
        intro t ht
        rcases List.mem_map.1 ht with ⟨p, _, rfl⟩
        simp [hc]
      rw [hzero, List.length_nil, Nat.zero_add]
      by_cases hm : cname ∈ cs
      · rw [if_pos hm, if_pos (List.mem_cons_of_mem _ hm)]
      · rw [if_neg hm, if_neg (fun h => by
          rcases List.mem_cons.1 h with he | hm2
          · exact hc he.symm
          · exact hm hm2)]

/-- The moved-layer ids a same-version diff works with. -/
def movedIds (b a : StyleDoc) : List String :=
  movedOf (movePass (idsOf b.layers) a.layers.reverse 0
    ((idsOf b.layers).filter fun x => (idsOf a.layers).contains x))

/-! ## Claims -/

/-- C4: for a layer present and unmoved in both same-version documents
(unique ids, unique property keys and class names, as JavaScript objects
guarantee), the diff emits exactly one `setPaintProperty(layerId, key,
afterValue, classNameOrNull)` per paint (or `paint.<class>`) key whose
value was added, removed, or deeply changed — and none for unchanged keys,
so never a bulk paint replace — and every such operation carries `after`'s
whole value for that key (`none` when the key was removed), so a nested
change arrives as one operation with the complete new value. -/
theorem claim4_paint_granularity (b a : StyleDoc) (al bl : Layer)
    (hv : b.version = a.version)
    (hnd : (idsOf a.layers).Nodup)
    (hal : lookupLayer al.id a.layers = some al)
    (hbl : lookupLayer al.id b.layers = some bl)
    (hmv : (movedIds b a).contains al.id = false)
    (hbk : ∀ c, (propsKeys (classProps bl c)).Nodup)
    (hak : ∀ c, (propsKeys (classProps al c)).Nodup)
    (hbc : (bl.paintClasses.map Prod.fst).Nodup)
    (hac : (al.paintClasses.map Prod.fst).Nodup) :
    (∀ c k,
      ((setPaintArgsFor al.id (diffStyles b a)).filter
          (fun t => t.1 == k && t.2.2 == c)).length =
        if changedKey (classProps bl c) (classProps al c) k then 1 else 0) ∧
    (∀ t ∈ setPaintArgsFor al.id (diffStyles b a),
      t.2.1 = lookupJ t.1 (classProps al t.2.2)) := by
  have hdiff : setPaintArgsFor al.id (diffStyles b a) =
      (diffPropsPairs (classProps bl none) (classProps al none)).map
        (fun p => (p.1, p.2, (none : Option String))) ++
      (classNames bl al).flatMap (fun c =>
        (diffPropsPairs (classProps bl (some c)) (classProps al (some c))).map
          (fun p => (p.1, p.2, some c))) := by
    have hmv2 : (movedOf (movePass (idsOf b.layers) a.layers.reverse 0
        ((idsOf b.layers).filter fun x => (idsOf a.layers).contains x))).contains
          al.id = false := hmv
    rw [setPaintArgsFor_diff b a hv,
      setPaintArgsFor_updatePass_eq b.layers a.layers _ al bl hnd hal hbl hmv2,
      setPaintArgsFor_updateLayerOps_eq]
  rw [hdiff]
  have hblk : ∀ x, x ∈ classNames bl al ↔
      x ∈ bl.paintClasses.map Prod.fst ∨ x ∈ al.paintClasses.map Prod.fst := by
    intro x
    unfold classNames
    rw [List.mem_append, List.mem_filter]
    constructor
    · rintro (h | ⟨h, _⟩)
      · exact Or.inl h
      · exact Or.inr h
    · rintro (h | h)
      · exact Or.inl h
      · by_cases hb2 : x ∈ bl.paintClasses.map Prod.fst
        · exact Or.inl hb2
        · refine Or.inr ⟨h, ?_⟩
          cases hc2 : (bl.paintClasses.map Prod.fst).contains x
          · rfl
          · exact absurd ((contains_iff_mem _ _).1 hc2) hb2
  have hcn : (classNames bl al).Nodup := by
    unfold classNames
    refine hbc.append (hac.filter _) ?_
    intro x hx hx2
    have h2 := (List.mem_filter.1 hx2).2
    rw [(contains_iff_mem _ _).2 hx] at h2
    simp at h2
  constructor
  · intro c k
    rw [List.filter_append, List.length_append]
    cases c with
    | none =>
      have h2 : ((classNames bl al).flatMap fun c =>
          (diffPropsPairs (classProps bl (some c)) (classProps al (some c))).map
            (fun p => (p.1, p.2, some c))).filter
          (fun t => t.1 == k && t.2.2 == (none : Option String)) = [] := by
        rw [List.filter_eq_nil_iff]
        intro t ht
        rcases List.mem_flatMap.1 ht with ⟨c2, _, ht2⟩
        rcases List.mem_map.1 ht2 with ⟨p, _, rfl⟩
        simp
      rw [h2, List.length_nil, Nat.add_zero]
      rw [List.filter_map, List.length_map]
      have hco : ((fun t => t.1 == k && t.2.2 == (none : Option String)) ∘
          (fun p : String × Option JValue => (p.1, p.2, (none : Option String)))) =
          fun p => p.1 == k := by
        funext p
        simp [Function.comp]
      rw [hco, diffPropsPairs_count _ _ (hbk none) (hak none) k]
    | some cname =>
      have h1 : ((diffPropsPairs (classProps bl none) (classProps al none)).map
          (fun p => (p.1, p.2, (none : Option String)))).filter
          (fun t => t.1 == k && t.2.2 == some cname) = [] := by
        rw [List.filter_eq_nil_iff]
        intro t ht
        rcases List.mem_map.1 ht with ⟨p, _, rfl⟩
        simp
      rw [h1, List.length_nil, Nat.zero_add]
      rw [flatMap_class_count _ hcn cname k]
      by_cases hm : cname ∈ classNames bl al
      · rw [if_pos hm, diffPropsPairs_count _ _ (hbk (some cname)) (hak (some cname)) k]
      · rw [if_neg hm]
        have hnotb : cname ∉ bl.paintClasses.map Prod.fst :=
          fun h => hm ((hblk cname).2 (Or.inl h))
        have hnota : cname ∉ al.paintClasses.map Prod.fst :=
          fun h => hm ((hblk cname).2 (Or.inr h))
        have hb0 : classProps bl (some cname) = [] := by
          have hf : List.find? (fun kv => kv.1 == cname) bl.paintClasses = none :=
            List.find?_eq_none.2 (fun kv hkv hbeq => hnotb (by
              have he : kv.1 = cname := by simpa using hbeq
              exact he ▸ List.mem_map_of_mem Prod.fst hkv))
          show (match List.find? (fun kv => kv.1 == cname) bl.paintClasses with
                | some kv => kv.2
                | none => ([] : Props)) = []
          rw [hf]
        have ha0 : classProps al (some cname) = [] := by
          have hf : List.find? (fun kv => kv.1 == cname) al.paintClasses = none :=
            List.find?_eq_none.2 (fun kv hkv hbeq => hnota (by
              have he : kv.1 = cname := by simpa using hbeq
              exact he ▸ List.mem_map_of_mem Prod.fst hkv))
          show (match List.find? (fun kv => kv.1 == cname) al.paintClasses with
                | some kv => kv.2
                | none => ([] : Props)) = []
          rw [hf]
        rw [hb0, ha0]
        rfl
  · intro t ht
    rcases List.mem_append.1 ht with h | h
    · rcases List.mem_map.1 h with ⟨p, hp, rfl⟩
      exact diffPropsPairs_value _ _ (hak none) p hp
    · rcases List.mem_flatMap.1 h with ⟨c2, _, h2⟩
      rcases List.mem_map.1 h2 with ⟨p, hp, rfl⟩
      exact diffPropsPairs_value _ _ (hak (some c2)) p hp



/-- The swapped-layers pair of the repository's diff tests. -/
def swapBefore : StyleDoc :=
  { layers := [{ id := "a" }, { id := "b" }] }

/-- Its `after` document with the two layers swapped. -/
def swapAfter : StyleDoc :=
  { layers := [{ id := "b" }, { id := "a" }] }

/-- C3 counterexample: when the two surviving layers swap, the relative
order of layer `b` among surviving layers changed (it moved ahead of `a`),
yet the diff emits no `removeLayer`/`addLayer` pair for `b` — only `a` is
re-added — so the claim that each layer whose relative order changed is
removed and re-added is false. -/
theorem claim3_counterexample :
    idsOf swapBefore.layers = ["a", "b"] ∧
    idsOf swapAfter.layers = ["b", "a"] ∧
    diffStyles swapBefore swapAfter =
      [Op.removeLayer "a", Op.addLayer { id := "a" } none] ∧
    "b" ∉ removeLayerIds (diffStyles swapBefore swapAfter) ∧
    "b" ∉ (addLayerArgs (diffStyles swapBefore swapAfter)).map (fun p => p.1.id) :=
  ⟨rfl, rfl, rfl, by decide, by decide⟩

/-- C3 (amended): in a same-version diff with unique `after` ids, every
emitted `addLayer(layerSpec, anchor)` — whether re-adding a moved surviving
layer or adding a new one — carries as anchor the id of the layer
immediately following it in `after`'s layer list (`undefined`/`none` when
it is last), and every layer present only in `after` is emitted as exactly
one `addLayer`.  Which surviving layers are re-added is decided by the
backwards scan (of a swapped pair only the one found out of place is
moved), not by every relative-order change. -/
theorem claim3_anchors (b a : StyleDoc) (hv : b.version = a.version)
    (hnd : (idsOf a.layers).Nodup) :
    (∀ l anch, Op.addLayer l anch ∈ diffStyles b a → anch = nextIdAfter a.layers l.id) ∧
    (∀ l ∈ a.layers, l.id ∉ idsOf b.layers →
      ((addLayerArgs (diffStyles b a)).filter (fun p => p.1.id == l.id)).length = 1) := by
  have haux := movePass_aux (idsOf b.layers) a.layers hnd a.layers.reverse []
    ((idsOf b.layers).filter fun i => (idsOf a.layers).contains i)
    (by simp)
    (fun x hx => (List.mem_filter.1 hx).1)
  simp only [idsOf_nil, List.append_nil, List.length_nil] at haux
  constructor
  · intro l anch hmem
    rw [addLayer_mem_iff, addLayerArgs_diff b a hv, ← addLayer_mem_iff] at hmem
    exact haux.1 l anch hmem
  · intro l hl hnb
    rw [addLayerArgs_diff b a hv]
    exact haux.2 l (List.mem_reverse.2 hl) hnb

/-- C3 witness: the add-before pair of the repository's diff tests — the
new layer `a` is anchored on `b`, the layer following it in `after`. -/
theorem claim3_anchors_witness :
    ({ layers := [{ id := "b" }] } : StyleDoc).version =
      ({ layers := [{ id := "a" }, { id := "b" }] } : StyleDoc).version ∧
    (idsOf ({ layers := [{ id := "a" }, { id := "b" }] } : StyleDoc).layers).Nodup ∧
    ((∀ l anch,
        Op.addLayer l anch ∈ diffStyles { layers := [{ id := "b" }] }
          { layers := [{ id := "a" }, { id := "b" }] } →
          anch = nextIdAfter ({ layers := [{ id := "a" }, { id := "b" }] } : StyleDoc).layers l.id) ∧
      (∀ l ∈ ({ layers := [{ id := "a" }, { id := "b" }] } : StyleDoc).layers,
        l.id ∉ idsOf ({ layers := [{ id := "b" }] } : StyleDoc).layers →
          ((addLayerArgs (diffStyles { layers := [{ id := "b" }] }
            { layers := [{ id := "a" }, { id := "b" }] })).filter
              (fun p => p.1.id == l.id)).length = 1)) :=
  ⟨rfl, by decide,
    claim3_anchors { layers := [{ id := "b" }] }
      { layers := [{ id := "a" }, { id := "b" }] } rfl (by decide)⟩



/-- The ref-cascade document pair of the repository's diff tests: layer `c`
refs layer `b`; `after` keeps only `a`. -/
def refCascadeBefore : StyleDoc :=
  { layers := [{ id := "a" }, { id := "b" }, { id := "c", ref := some "b" }] }

/-- The `after` document keeping only layer `a`. -/
def refCascadeAfter : StyleDoc :=
  { layers := [{ id := "a" }] }

/-- C2 counterexample: in the pinned ref-removal test, layer `c` is a
`before` layer absent from `after` (a chain of length one ending at `c`,
and also the end of the chain `c —ref→ b`), yet the diff emits no
`removeLayer` for `c` at all — only the single `removeLayer b` — because
removing `b` already removes its dependents on the applier side.  The claim
that every removed layer gets exactly one `removeLayer` operation is
therefore false. -/
theorem claim2_counterexample :
    idsOf refCascadeBefore.layers = ["a", "b", "c"] ∧
    idsOf refCascadeAfter.layers = ["a"] ∧
    "c" ∈ idsOf refCascadeBefore.layers ∧
    "c" ∉ idsOf refCascadeAfter.layers ∧
    diffStyles refCascadeBefore refCascadeAfter = [Op.removeLayer "b"] ∧
    removeLayerIds (diffStyles refCascadeBefore refCascadeAfter) = ["b"] ∧
    "c" ∉ removeLayerIds (diffStyles refCascadeBefore refCascadeAfter) :=
  ⟨rfl, rfl, by decide, by decide, rfl, rfl, by decide⟩

/-- C2 (amended): among a same-version diff's `removeLayer` operations,
those targeting layers absent from `after` are exactly one per `before`
layer that is absent from `after` and whose `ref` target, if any, is still
present in `after`; a removed layer whose `ref` target is also removed gets
no `removeLayer` of its own (it is removed implicitly by its target's
cascading removal), and with unique `before` ids no id is removed twice. -/
theorem claim2_removal_cascade (b a : StyleDoc) (hv : b.version = a.version)
    (hnd : (idsOf b.layers).Nodup) :
    (removeLayerIds (diffStyles b a)).filter (fun i => !(idsOf a.layers).contains i) =
      (b.layers.filter (removedWithRemoveLayer (idsOf a.layers))).map Layer.id ∧
    ((b.layers.filter (removedWithRemoveLayer (idsOf a.layers))).map Layer.id).Nodup := by
  refine ⟨removeLayerIds_diff b a hv, ?_⟩
  exact (List.Nodup.sublist ((List.filter_sublist _).map Layer.id)) hnd

/-- C2 witness: the pinned ref-removal pair instantiates the amended claim;
only `b` (removed, no ref) earns a `removeLayer`, while `c` (removed, but
its ref target `b` is removed too) earns none. -/
theorem claim2_removal_cascade_witness :
    refCascadeBefore.version = refCascadeAfter.version ∧
    (idsOf refCascadeBefore.layers).Nodup ∧
    ((removeLayerIds (diffStyles refCascadeBefore refCascadeAfter)).filter
        (fun i => !(idsOf refCascadeAfter.layers).contains i) =
      (refCascadeBefore.layers.filter
        (removedWithRemoveLayer (idsOf refCascadeAfter.layers))).map Layer.id ∧
      ((refCascadeBefore.layers.filter
        (removedWithRemoveLayer (idsOf refCascadeAfter.layers))).map Layer.id).Nodup) :=
  ⟨rfl, by decide,
    claim2_removal_cascade refCascadeBefore refCascadeAfter rfl (by decide)⟩



/-- C1: for every pair of style documents whose `version` fields differ,
`diff(before, after)` returns exactly `[setStyle(after)]`, regardless of
any other differences between the two documents. -/
theorem claim1_version_short_circuit (b a : StyleDoc) (h : b.version ≠ a.version) :
    diffStyles b a = [Op.setStyle a] := by
  unfold diffStyles
  rw [if_pos h]

/-- C1 witness: the version-change pair of the repository's diff test
suite, where the documents also agree on everything else but the version. -/
theorem claim1_version_short_circuit_witness :
    ({ version := some 7, layers := [{ id := "a" }] } : StyleDoc).version ≠
      ({ version := some 8, layers := [{ id := "a" }] } : StyleDoc).version ∧
    diffStyles { version := some 7, layers := [{ id := "a" }] }
      { version := some 8, layers := [{ id := "a" }] } =
      [Op.setStyle { version := some 8, layers := [{ id := "a" }] }] :=
  ⟨by decide, claim1_version_short_circuit _ _ (by decide)⟩

/-- C6: `migrate` rewrites every `{stops: [[d1,r1],...,[dn,rn]], base?}`
property value so that a schema-discrete property becomes
`type: "interval"` with domain `[d2,...,dn]` (first stop input dropped),
range `[r1,...,rn]` and no `base`, and any other property becomes
`type: "exponential"` with the full domain `[d1,...,dn]`, range
`[r1,...,rn]`, keeping `base` when present. -/
theorem claim6_migrate_stops_rewrite (stops : List (JValue × JValue)) (base : Option JValue) :
    migrateFunction true (mkStopsFn stops base) =
      .obj [("domain", .arr ((stops.map Prod.fst).drop 1)),
            ("range", .arr (stops.map Prod.snd)),
            ("type", .str "interval")] ∧
    migrateFunction false (mkStopsFn stops base) =
      .obj ((match base with | some b => [("base", b)] | none => []) ++
        [("domain", .arr (stops.map Prod.fst)),
         ("range", .arr (stops.map Prod.snd)),
         ("type", .str "exponential")]) :=
  ⟨migrateFunction_interval_eq stops base, migrateFunction_exponential_eq stops base⟩

/-- C10: for a discrete property value with at least one stop, the migrated
interval function has `range.length = domain.length + 1`, and the embedded
`validateFunction` (whose `interval` branch demands exactly that relation)
reports no arity error on it — only possibly ascending-order errors. -/
theorem claim10_interval_arity (stops : List (JValue × JValue)) (base : Option JValue)
    (h : stops ≠ []) :
    ∃ kvs, migrateFunction true (mkStopsFn stops base) = .obj kvs ∧
      (arrField kvs "range").length = (arrField kvs "domain").length + 1 ∧
      validateFunction [] [] true "k" kvs = ascendingErrs "k" (arrField kvs "domain") := by
  refine ⟨_, migrateFunction_interval_eq stops base, ?_, ?_⟩
  · cases stops with
    | nil => exact absurd rfl h
    | cons p rest => simp [arrField, lookupJ]
  · cases stops with
    | nil => exact absurd rfl h
    | cons p rest => simp [validateFunction, arrField, lookupJ, jTruthy, ftIs, ascendingErrs]

/-- C10 witness: the piecewise-constant example of the repository's
migration test (`text-transform`, a discrete property). -/
theorem claim10_interval_arity_witness :
    ([((.num 1 : JValue), (.str "uppercase" : JValue)), (.num 3, .str "lowercase")] ≠
      ([] : List (JValue × JValue))) ∧
    ∃ kvs,
      migrateFunction true
        (mkStopsFn [(.num 1, .str "uppercase"), (.num 3, .str "lowercase")] none) = .obj kvs ∧
      (arrField kvs "range").length = (arrField kvs "domain").length + 1 ∧
      validateFunction [] [] true "k" kvs = ascendingErrs "k" (arrField kvs "domain") :=
  ⟨List.cons_ne_nil _ _,
    claim10_interval_arity [(.num 1, .str "uppercase"), (.num 3, .str "lowercase")] none
      (List.cons_ne_nil _ _)⟩

/-- A function value with two independent violations: an object-shape
violation (the stray key `bogus`) and an arity violation (`range` has one
element, `domain` two). -/
def fnBadFields : List (String × JValue) :=
  [("type", .str "exponential"), ("domain", .arr [.num 0, .num 1]),
   ("range", .arr [.num 1]), ("bogus", .num 1)]

/-- A function value with two independent violations that both survive
object validation: wrong arity and a descending domain. -/
def fnDoubleBad : List (String × JValue) :=
  [("domain", .arr [.num 2, .num 1]), ("range", .arr [.num 0])]

/-- C9 counterexample: `fnBadFields` has both an object-shape violation and
an arity violation, yet `validateFunction` — which returns as soon as basic
object validation fails — reports only the object error; the arity error is
not in the returned list, so the validator does not return every violation
in one pass. -/
theorem claim9_counterexample :
    validateObjectModel "f" fnAllowedKeys fnRequiredKeys fnBadFields =
      [⟨"f.bogus", "unknown property"⟩] ∧
    (arrField fnBadFields "range").length ≠ (arrField fnBadFields "domain").length ∧
    validateFunction (validateObjectModel "f" fnAllowedKeys fnRequiredKeys fnBadFields)
        [] false "f" fnBadFields = [⟨"f.bogus", "unknown property"⟩] ∧
    (⟨"f", "domain and range must have equal number of elements"⟩ : VErr) ∉
      validateFunction (validateObjectModel "f" fnAllowedKeys fnRequiredKeys fnBadFields)
        [] false "f" fnBadFields := by
  refine ⟨rfl, by decide, rfl, by decide⟩

/-- C9 amended: the validators accumulate all violations found by the
checks they run — the filter validator reports every independent violation
of a filter in one flat list, and `validateFunction` accumulates its arity
and ordering errors — but `validateFunction` returns early when basic
object validation fails, so object-shape errors suppress the later checks.
Here: a filter whose key operand is not a string and whose value operand is
a constant reference yields both errors; a function with a wrong arity and
a descending domain yields both errors. -/
theorem claim9_amended :
    (∀ geoms, validateFilterJ filterOperators geoms "filter"
        (.arr [.str "==", .num 5, .str "@x"]) =
      [⟨"filter[1]", "string expected, number found"⟩,
       ⟨"filter[2]", "filter value cannot be a constant"⟩]) ∧
    validateFunction (validateObjectModel "f" fnAllowedKeys fnRequiredKeys fnDoubleBad)
        [] false "f" fnDoubleBad =
      [⟨"f", "domain and range must have equal number of elements"⟩,
       ⟨"f.domain", "domain elements must be in ascending order"⟩] :=
  ⟨fun geoms => by rfl, rfl⟩

/-- The nested-paint-change layer of the repository's diff tests,
`before`. -/
def c4Before : Layer :=
  { id := "a", paint := some [("foo", .obj [("ramp", .arr [.num 1, .num 2])])] }

/-- The same layer `after`, with a change inside the nested value. -/
def c4After : Layer :=
  { id := "a", paint := some [("foo", .obj [("ramp", .arr [.num 1])])] }

/-- The `before` document. -/
def c4DocB : StyleDoc := { layers := [c4Before] }

/-- The `after` document. -/
def c4DocA : StyleDoc := { layers := [c4After] }

/-- C4 witness: the nested-style-change pair of the repository's diff test
suite instantiates the per-key paint granularity claim. -/
theorem claim4_paint_granularity_witness :
    c4DocB.version = c4DocA.version ∧
    (idsOf c4DocA.layers).Nodup ∧
    lookupLayer c4After.id c4DocA.layers = some c4After ∧
    lookupLayer c4After.id c4DocB.layers = some c4Before ∧
    (movedIds c4DocB c4DocA).contains c4After.id = false ∧
    ((∀ c k,
      ((setPaintArgsFor c4After.id (diffStyles c4DocB c4DocA)).filter
          (fun t => t.1 == k && t.2.2 == c)).length =
        if changedKey (classProps c4Before c) (classProps c4After c) k then 1 else 0) ∧
    (∀ t ∈ setPaintArgsFor c4After.id (diffStyles c4DocB c4DocA),
      t.2.1 = lookupJ t.1 (classProps c4After t.2.2))) :=
  ⟨rfl, by decide, rfl, rfl, rfl,
    claim4_paint_granularity c4DocB c4DocA c4After c4Before rfl (by decide) rfl rfl rfl
      (fun c => by
        cases c with
        | none => decide
        | some s => exact List.nodup_nil)
      (fun c => by
        cases c with
        | none => decide
        | some s => exact List.nodup_nil)
      List.nodup_nil List.nodup_nil⟩

/-- C8: declassifying with an empty class list leaves every layer — and in
particular every layer's `paint` — unchanged: the output document's
`layers` value is the input's own layer list. -/
theorem claim8_declass_empty (style : JValue) (ls : List JValue)
    (h : lookupJ "layers" (fieldsOfV style) = some (.arr ls)) :
    declassStyleJ style [] =
      some (.obj (extendFields (fieldsOfV style) [("layers", .arr ls)])) ∧
    lookupJ "layers" (extendFields (fieldsOfV style) [("layers", .arr ls)]) =
      some (.arr ls) := by
  constructor
  · unfold declassStyleJ
    rw [h]
    simp [List.foldl]
  · rw [lookupJ_extendFields, h]
    rfl

/-- The layer list of the repository's declass test document. -/
def declassWitnessLayers : List JValue :=
  [.obj [("id", .str "a"), ("paint", .obj [("fill-color", .str "red")])]]

/-- The one-layer document of the repository's declass test. -/
def declassWitnessStyle : JValue :=
  .obj [("layers", .arr declassWitnessLayers)]

/-- C8 witness: the one-layer document of the repository's declass test,
declassified with no classes. -/
theorem claim8_declass_empty_witness :
    lookupJ "layers" (fieldsOfV declassWitnessStyle) = some (.arr declassWitnessLayers) ∧
    declassStyleJ declassWitnessStyle [] =
      some (.obj (extendFields (fieldsOfV declassWitnessStyle)
        [("layers", .arr declassWitnessLayers)])) :=
  ⟨rfl, (claim8_declass_empty declassWitnessStyle declassWitnessLayers rfl).1⟩

/-! ## C5: no-op diffs — deep equality modulo metadata -/

/-- Deep equality of two property maps, key order irrelevant (the object
case of `deq`). -/
def propsDeq (bp ap : Props) : Bool :=
  deqFields bp ap && ap.all (fun kv => hasKeyJ kv.1 bp)

/-- Modelled from the spec: deep equality of two layers with `metadata`
excluded — every other field deeply equal, the paint class overlays
compared class by class. -/
def layerEqModMeta (bl al : Layer) : Bool :=
  bl.id == al.id &&
  bl.ref == al.ref &&
  deqOpt bl.typ al.typ &&
  deqOpt bl.source al.source &&
  deqOpt bl.sourceLayer al.sourceLayer &&
  deqOpt bl.filter al.filter &&
  deqOpt bl.minzoom al.minzoom &&
  deqOpt bl.maxzoom al.maxzoom &&
  propsDeq (bl.layout.getD []) (al.layout.getD []) &&
  propsDeq (bl.paint.getD []) (al.paint.getD []) &&
  ((classNames bl al).all fun c =>
    propsDeq (classProps bl (some c)) (classProps al (some c)))

/-- Modelled from the spec: pointwise layer-list equality modulo
metadata. -/
def layersEqModMeta : List Layer → List Layer → Bool
  | [], [] => true
  | bl :: bs2, al :: as2 => layerEqModMeta bl al && layersEqModMeta bs2 as2
  | _, _ => false

/-- Modelled from the spec: deep equality of two style documents with
`metadata` excluded at the document level and at each layer. -/
def styleEqModMeta (b a : StyleDoc) : Bool :=
  b.version == a.version &&
  propsDeq b.sources a.sources &&
  layersEqModMeta b.layers a.layers &&
  deqOpt b.light a.light &&
  deqOpt b.center a.center &&
  deqOpt b.zoom a.zoom &&
  deqOpt b.bearing a.bearing &&
  deqOpt b.pitch a.pitch

/-- `deqFields bp ap` finds every key of `bp` in `ap` with a deeply equal
value. -/
theorem deqFields_lookup (bp ap : Props) (h : deqFields bp ap = true) :
    ∀ kv ∈ bp, ∃ w, lookupJ kv.1 ap = some w ∧ deq kv.2 w = true := by
  induction bp with
  | nil => intro kv hkv; cases hkv
  | cons kv0 rest ih =>
    obtain ⟨k0, v0⟩ := kv0
    rw [deqFields, Bool.and_eq_true] at h
    intro kv hkv
    rcases List.mem_cons.1 hkv with heq | hmem
    · subst heq
      cases hl : lookupJ k0 ap with
      | none =>
        have h1 := h.1
        rw [hl] at h1
        exact absurd h1 (by simp)
      | some w =>
        have h1 := h.1
        rw [hl] at h1
        exact ⟨w, rfl, h1⟩
    · exact ih h.2 kv hmem

/-- A per-key property diff of two deeply equal maps is empty. -/
theorem diffProps_eq_nil (emit : String → Option JValue → Op) (bp ap : Props)
    (h : propsDeq bp ap = true) : diffProps emit bp ap = [] := by
  rw [propsDeq, Bool.and_eq_true] at h
  rw [diffProps, List.append_eq_nil]
  constructor
  · rw [List.filterMap_eq_nil_iff]
    intro kv hkv
    obtain ⟨w, hw, hdw⟩ := deqFields_lookup bp ap h.1 kv hkv
    simp only [hw]
    rw [if_pos hdw]
  · rw [List.filterMap_eq_nil_iff]
    intro kv hkv
    rw [if_pos (List.all_eq_true.1 h.2 kv hkv)]

/-- Pointwise-equal layer lists have equal id lists. -/
theorem layersEq_ids (bls : List Layer) : ∀ als : List Layer,
    layersEqModMeta bls als = true → idsOf bls = idsOf als := by
  induction bls with
  | nil =>
    intro als h
    cases als with
    | nil => rfl
    | cons a as2 => exact Bool.noConfusion h
  | cons bl bs2 ih =>
    intro als h
    cases als with
    | nil => exact Bool.noConfusion h
    | cons al as2 =>
      rw [layersEqModMeta, Bool.and_eq_true] at h
      have hid : bl.id = al.id := by
        have h1 := h.1
        rw [layerEqModMeta] at h1
        simp only [Bool.and_eq_true] at h1
        exact beq_iff_eq.1 h1.1.1.1.1.1.1.1.1.1.1
      rw [show idsOf (bl :: bs2) = bl.id :: idsOf bs2 from rfl,
        show idsOf (al :: as2) = al.id :: idsOf as2 from rfl, hid, ih as2 h.2]

/-- The components of layer equality modulo metadata that the update pass
reads. -/
theorem layerEqModMeta_spec (bl al : Layer) (h : layerEqModMeta bl al = true) :
    bl.id = al.id ∧
    deqOpt bl.filter al.filter = true ∧
    deqOpt bl.minzoom al.minzoom = true ∧
    deqOpt bl.maxzoom al.maxzoom = true ∧
    propsDeq (bl.layout.getD []) (al.layout.getD []) = true ∧
    propsDeq (bl.paint.getD []) (al.paint.getD []) = true ∧
    (∀ c ∈ classNames bl al,
      propsDeq (classProps bl (some c)) (classProps al (some c)) = true) := by
  rw [layerEqModMeta] at h
  simp only [Bool.and_eq_true, List.all_eq_true] at h
  obtain ⟨⟨⟨⟨⟨⟨⟨⟨⟨⟨h1, _⟩, _⟩, _⟩, _⟩, h6⟩, h7⟩, h8⟩, h9⟩, h10⟩, h11⟩ := h
  exact ⟨beq_iff_eq.1 h1, h6, h7, h8, h9, h10, h11⟩

/-- The update pass emits nothing for a layer deeply equal to its `before`
partner modulo metadata. -/
theorem updateLayerOps_eq_nil (bl al : Layer) (h : layerEqModMeta bl al = true) :
    updateLayerOps bl al = [] := by
  obtain ⟨_, h6, h7, h8, h9, h10, h11⟩ := layerEqModMeta_spec bl al h
  have hpaint : diffProps (fun k v => Op.setPaintProperty al.id k v none)
      (classProps bl none) (classProps al none) = [] :=
    diffProps_eq_nil _ _ _ h10
  have hcls : ((classNames bl al).flatMap fun c =>
      diffProps (fun k v => Op.setPaintProperty al.id k v (some c))
        (classProps bl (some c)) (classProps al (some c))) = [] := by
    rw [List.flatMap_eq_nil_iff]
    intro c hc
    exact diffProps_eq_nil _ _ _ (h11 c hc)
  have hlay : diffProps (fun k v => Op.setLayoutProperty al.id k v none)
      (bl.layout.getD []) (al.layout.getD []) = [] :=
    diffProps_eq_nil _ _ _ h9
  have hzoom : (deqOpt bl.minzoom al.minzoom && deqOpt bl.maxzoom al.maxzoom) = true := by
    rw [Bool.and_eq_true]; exact ⟨h7, h8⟩
  simp only [updateLayerOps]
  rw [hpaint, hcls, hlay, if_pos h6, if_pos hzoom]
  rfl

/-- Under unique `after` ids, each `after` layer's lookup in a pointwise
equal `before` list finds a layer equal to it modulo metadata. -/
theorem lookup_partner (bls : List Layer) : ∀ als : List Layer,
    layersEqModMeta bls als = true → (idsOf als).Nodup →
    ∀ al ∈ als, ∃ bl, lookupLayer al.id bls = some bl ∧ layerEqModMeta bl al = true := by
  induction bls with
  | nil =>
    intro als h _ al hal
    cases als with
    | nil => cases hal
    | cons a as2 => exact Bool.noConfusion h
  | cons bl bs2 ih =>
    intro als h hnd al2 hal2
    cases als with
    | nil => cases hal2
    | cons al as2 =>
      rw [layersEqModMeta, Bool.and_eq_true] at h
      have hid : bl.id = al.id := (layerEqModMeta_spec bl al h.1).1
      have hnd2 := List.nodup_cons.1 (show (al.id :: idsOf as2).Nodup from hnd)
      rcases List.mem_cons.1 hal2 with heq | hmem
      · subst heq
        refine ⟨bl, ?_, h.1⟩
        rw [lookupLayer, if_pos hid]
      · have hne : bl.id ≠ al2.id := by
          rw [hid]
          intro hc
          apply hnd2.1
          rw [hc]
          exact List.mem_map.2 ⟨al2, hmem, rfl⟩
        obtain ⟨bl2, hl, he⟩ := ih as2 h.2 hnd2.2 al2 hmem
        exact ⟨bl2, by rw [lookupLayer, if_neg hne, hl], he⟩

/-- The update pass over pointwise equal layer lists (no moved layers)
emits nothing. -/
theorem updatePass_eq_nil (bls als : List Layer) (h : layersEqModMeta bls als = true)
    (hnd : (idsOf als).Nodup) : updatePass bls als [] = [] := by
  rw [updatePass, List.flatMap_eq_nil_iff]
  intro al hal
  obtain ⟨bl, hl, he⟩ := lookup_partner bls als h hnd al hal
  rw [if_neg (by simp)]
  simp only [hl]
  exact updateLayerOps_eq_nil bl al he

/-- No removals when every `before` layer survives. -/
theorem removalOps_eq_nil (bls : List Layer) (aIds : List String)
    (h : ∀ l ∈ bls, aIds.contains l.id = true) : removalOps bls aIds = [] := by
  rw [removalOps, List.filterMap_eq_nil_iff]
  intro l hl
  rw [if_pos (h l hl)]

/-- No source operations between deeply equal source maps. -/
theorem sourceOps_eq_nil (bs asrc : List (String × JValue))
    (h : propsDeq bs asrc = true) : sourceOps bs asrc = [] := by
  rw [propsDeq, Bool.and_eq_true] at h
  rw [sourceOps, List.append_eq_nil]
  constructor
  · rw [List.filterMap_eq_nil_iff]
    intro kv hkv
    obtain ⟨w, hw, _⟩ := deqFields_lookup bs asrc h.1 kv hkv
    have hk : hasKeyJ kv.1 asrc = true := by rw [hasKeyJ, hw]; rfl
    rw [if_pos hk]
  · rw [List.filterMap_eq_nil_iff]
    intro kv hkv
    rw [if_pos (List.all_eq_true.1 h.2 kv hkv)]

/-- The move pass leaves a layer stack alone when the tracker already lists
every remaining layer at its final position. -/
theorem movePass_id (bIds : List String) : ∀ (rest : List Layer) (j : Nat)
    (tracker : List String), tracker.length = j + rest.length →
    (∀ k (hk : k < rest.length),
      tracker[tracker.length - 1 - (j + k)]? = some (rest.get ⟨k, hk⟩).id) →
    movePass bIds rest j tracker = [] := by
  intro rest
  induction rest with
  | nil => intro j tracker _ _; rfl
  | cons l rest2 ih =>
    intro j tracker hlen hpos
    have hlen2 : tracker.length = j + rest2.length + 1 := by
      rw [hlen, List.length_cons]; omega
    have hj : j < tracker.length := by omega
    rw [movePass]
    have hc : (j < tracker.length && tracker[tracker.length - 1 - j]? == some l.id) = true := by
      rw [Bool.and_eq_true]
      refine ⟨decide_eq_true hj, ?_⟩
      have h0 := hpos 0 (Nat.succ_pos _)
      rw [Nat.add_zero] at h0
      rw [h0]
      exact beq_self_eq_true _
    rw [if_pos hc]
    refine ih (j + 1) tracker (by omega) ?_
    intro k hk
    have h1 := hpos (k + 1) (Nat.succ_lt_succ hk)
    have harith : j + (k + 1) = j + 1 + k := by omega
    rw [harith] at h1
    exact h1

/-- The whole layer pass of two layer lists equal modulo metadata is
empty. -/
theorem layerPass_eq_nil (bls als : List Layer) (h : layersEqModMeta bls als = true)
    (hnd : (idsOf als).Nodup) : layerPass bls als = [] := by
  have hids := layersEq_ids bls als h
  have hrem : removalOps bls (idsOf als) = [] := by
    apply removalOps_eq_nil
    intro l hl
    rw [← hids]
    exact (contains_iff_mem _ _).2 (List.mem_map.2 ⟨l, hl, rfl⟩)
  have htr : ((idsOf bls).filter fun i => (idsOf als).contains i) = idsOf als := by
    rw [hids, List.filter_eq_self]
    intro x hx
    exact (contains_iff_mem _ _).2 hx
  have hmv : movePass (idsOf bls) als.reverse 0 (idsOf als) = [] := by
    apply movePass_id
    · simp [idsOf]
    · intro k hk
      have hk2 : k < als.length := by simpa using hk
      have hlen2 : (idsOf als).length = als.length := by simp [idsOf]
      rw [Nat.zero_add, hlen2]
      have hm : als.length - 1 - k < (idsOf als).length := by omega
      rw [List.getElem?_eq_getElem hm]
      simp only [idsOf, List.getElem_map, List.get_eq_getElem, List.getElem_reverse]
  simp only [layerPass]
  rw [htr, hmv, hrem]
  have hm0 : movedOf ([] : List Op) = [] := rfl
  rw [hm0, updatePass_eq_nil bls als h hnd]
  rfl

/-- C5: for any two style documents that are deeply equal once `metadata`
is excluded at both the document level and the layer level (in particular
a document and itself, or a deep-equal copy), the diff is the empty
operation list (under the style-validity assumption that `after`'s layer
ids are unique). -/
theorem claim5_noop_diff (b a : StyleDoc) (hnd : (idsOf a.layers).Nodup)
    (heq : styleEqModMeta b a = true) : diffStyles b a = [] := by
  rw [styleEqModMeta] at heq
  simp only [Bool.and_eq_true] at heq
  obtain ⟨⟨⟨⟨⟨⟨⟨hv, hsrc⟩, hly⟩, hlight⟩, hcen⟩, hz⟩, hbear⟩, hpitch⟩ := heq
  rw [diffStyles, if_neg (not_ne_iff.mpr (beq_iff_eq.1 hv))]
  rw [sourceOps_eq_nil _ _ hsrc, layerPass_eq_nil _ _ hly hnd,
    if_pos hlight, if_pos hcen, if_pos hz, if_pos hbear, if_pos hpitch]
  rfl

/-- A document with layer and document metadata. -/
def c5Before : StyleDoc :=
  { sources := [("vector", .obj [("type", .str "vector")])],
    layers := [{ id := "a", paint := some [("foo", .num 1)],
                 metadata := some (.obj [("mapbox:group", .str "Group Name")]) }],
    zoom := some (.num 12),
    metadata := some (.obj [("mapbox:author", .str "nobody")]) }

/-- The same document with both metadata blocks changed or dropped. -/
def c5After : StyleDoc :=
  { sources := [("vector", .obj [("type", .str "vector")])],
    layers := [{ id := "a", paint := some [("foo", .num 1)],
                 metadata := some (.obj [("mapbox:group", .str "Another Name")]) }],
    zoom := some (.num 12),
    metadata := none }

/-- C5 witness: a concrete metadata-only change (document level and layer
level at once) diffs to the empty list. -/
theorem claim5_noop_diff_witness :
    (idsOf c5After.layers).Nodup ∧ styleEqModMeta c5Before c5After = true ∧
    diffStyles c5Before c5After = [] :=
  ⟨by decide, rfl, claim5_noop_diff c5Before c5After (by decide) rfl⟩


/-! ## C7: a mutable-heap embedding of declass and migrate

`declass.js` and `migrations/v9.js` manipulate JavaScript objects by
reference; whether they mutate their argument is a statement about object
identity, so this part of the development runs over an explicit heap of
addressed cells holding JSON objects and arrays. -/

/-- A heap value: a JSON primitive or a reference to a heap cell. -/
inductive HV where
  | null
  | bool (b : Bool)
  | num (n : Int)
  | str (s : String)
  | ref (a : Nat)
deriving DecidableEq

/-- A heap cell: a JSON object (field list in insertion order) or a JSON
array. -/
inductive HCell where
  | obj (fields : List (String × HV))
  | arr (elems : List HV)
deriving DecidableEq

/-- A heap: the next fresh address and the allocated cells. -/
structure Heap where
  next : Nat
  cells : List (Nat × HCell)

/-- Every allocated address lies below the allocation counter. -/
def heapWF (h : Heap) : Bool :=
  h.cells.all fun p => p.1 < h.next

/-- Read a cell. -/
def lookupCell (h : Heap) (a : Nat) : Option HCell :=
  (h.cells.find? (fun kv => kv.1 == a)).map Prod.snd

/-- Overwrite a cell in place. -/
def writeCell (h : Heap) (a : Nat) (c : HCell) : Heap :=
  { h with cells := h.cells.map (fun kv => if kv.1 == a then (a, c) else kv) }

/-- Allocate a fresh cell, returning the new heap and the new address. -/
def allocCell (h : Heap) (c : HCell) : Heap × Nat :=
  ({ next := h.next + 1, cells := (h.next, c) :: h.cells }, h.next)

/-- Read a field of an object cell (`none` is JavaScript `undefined`). -/
def getFieldH (h : Heap) (a : Nat) (k : String) : Option HV :=
  match lookupCell h a with
  | some (.obj fs) => (fs.find? (fun kv => kv.1 == k)).map Prod.snd
  | _ => none

/-- JavaScript assignment `o[k] = v` on a field list: update the existing
key in place, or append a new one. -/
def setFieldsAux (fs : List (String × HV)) (k : String) (v : HV) : List (String × HV) :=
  if fs.any (fun kv => kv.1 == k) then
    fs.map (fun kv => if kv.1 == k then (k, v) else kv)
  else fs ++ [(k, v)]

/-- `o[k] = v` on the object cell at `a` (no-op on non-objects, as the
migrations only assign into objects they just tested). -/
def setFieldH (h : Heap) (a : Nat) (k : String) (v : HV) : Heap :=
  match lookupCell h a with
  | some (.obj fs) => writeCell h a (.obj (setFieldsAux fs k v))
  | _ => h

/-- `delete o[k]` on the object cell at `a`. -/
def delFieldH (h : Heap) (a : Nat) (k : String) : Heap :=
  match lookupCell h a with
  | some (.obj fs) => writeCell h a (.obj (fs.filter (fun kv => !(kv.1 == k))))
  | _ => h

/-- `arr.shift()` on the array cell at `a` (only its effect on the array
is used). -/
def shiftArrH (h : Heap) (a : Nat) : Heap :=
  match lookupCell h a with
  | some (.arr es) => writeCell h a (.arr es.tail)
  | _ => h

/-- JavaScript truthiness of a possibly-absent heap value. -/
def hTruthy : Option HV → Bool
  | none => false
  | some .null => false
  | some (.bool b) => b
  | some (.num n) => n != 0
  | some (.str s) => s.length != 0
  | some (.ref _) => true

/-- Read a field through a heap value (`undefined` on primitives). -/
def hGetOpt (h : Heap) (v : HV) (k : String) : Option HV :=
  match v with
  | .ref a => getFieldH h a k
  | _ => none

/-- `for (k in v)` own-property values: an object's field values, an
array's elements, nothing for primitives or `undefined`. -/
def forInVals (h : Heap) (v : Option HV) : List HV :=
  match v with
  | some (.ref a) =>
    match lookupCell h a with
    | some (.obj fs) => fs.map Prod.snd
    | some (.arr es) => es
    | none => []
  | _ => []

/-- `for (k in v)` own properties with their keys (array indices become
decimal string keys). -/
def forInPairs (h : Heap) (v : Option HV) : List (String × HV) :=
  match v with
  | some (.ref a) =>
    match lookupCell h a with
    | some (.obj fs) => fs
    | some (.arr es) => es.enum.map (fun p => (natKey p.1, p.2))
    | none => []
  | _ => []

/-- `k.indexOf(p) === 0`: the second string begins with the first. -/
def charsStart : List Char → List Char → Bool
  | [], _ => true
  | _ :: _, [] => false
  | c :: cs, d :: ds => c == d && charsStart cs ds

/-- String version of `charsStart`. -/
def strStarts (p s : String) : Bool :=
  charsStart p.data s.data

/-- `stops[i][n]` read on the heap (`null` standing in for the `undefined`
of a non-array stop entry). -/
def stopComp (h : Heap) (e : HV) (n : Nat) : HV :=
  match e with
  | .ref a =>
    match lookupCell h a with
    | some (.arr es) => es.getD n .null
    | _ => .null
  | _ => .null

/-- The in-place `migrateFunction(key, value)` of `migrations/v9.js`
(part_005:44-67), on the heap: a truthy `value.stops` triggers the rewrite
that assigns fresh `domain`/`range` arrays into the function object, fills
them from the stops, sets `type` (shifting the domain and deleting `base`
in the discrete case) and deletes `stops`; an `@`-string recurses into
`style.constants` (the fuel bounds that recursion; `s` is the style's
address and `d` abstracts the external v9 reference's
`getProperty(key).function === 'discrete'` lookup). -/
def migrateFunctionH (d : String → Bool) (s : Nat) : Nat → Heap → String → HV → Heap
  | 0, h, _, _ => h
  | fuel + 1, h, key, value =>
    match value with
    | .ref a =>
      (match lookupCell h a with
       | some (.obj fs) =>
         if hTruthy ((fs.find? fun kv => kv.1 == "stops").map Prod.snd) then
           let p1 := allocCell h (.arr [])
           let h2 := setFieldH p1.1 a "domain" (.ref p1.2)
           let p3 := allocCell h2 (.arr [])
           let h4 := setFieldH p3.1 a "range" (.ref p3.2)
           let stopEls :=
             match (fs.find? fun kv => kv.1 == "stops").map Prod.snd with
             | some (.ref sa) =>
               (match lookupCell h4 sa with
                | some (.arr es) => es
                | _ => [])
             | _ => []
           let h5 := writeCell h4 p1.2 (.arr (stopEls.map fun e => stopComp h4 e 0))
           let h6 := writeCell h5 p3.2 (.arr (stopEls.map fun e => stopComp h4 e 1))
           let h7 :=
             if d key then
               delFieldH (shiftArrH (setFieldH h6 a "type" (.str "interval")) p1.2) a "base"
             else setFieldH h6 a "type" (.str "exponential")
           delFieldH h7 a "stops"
         else h
       | _ => h)
    | .str s0 =>
      if headIsAt s0 then
        migrateFunctionH d s fuel h key
          (match hGetOpt h (.ref s) "constants" with
           | some cv => (hGetOpt h cv s0).getD .null
           | none => .null)
      else h
    | _ => h

/-- The `eachLayer` callback of the migration (part_005:69-80): every
`layout*` block's entries, then every `paint*` block's entries, are passed
through `migrateFunctionH`. -/
def migrateLayerCB (d : String → Bool) (s : Nat) (fuel : Nat) (h : Heap) (layerV : HV) : Heap :=
  let h1 := ((forInPairs h (some layerV)).filter fun kv => strStarts "layout" kv.1).foldl
    (fun hh kv => (forInPairs hh (some kv.2)).foldl
      (fun h3 pv => migrateFunctionH d s fuel h3 pv.1 pv.2) hh) h
  ((forInPairs h1 (some layerV)).filter fun kv => strStarts "paint" kv.1).foldl
    (fun hh kv => (forInPairs hh (some kv.2)).foldl
      (fun h3 pv => migrateFunctionH d s fuel h3 pv.1 pv.2) hh) h1

/-- `eachLayer(style, callback)` (part_005:18-23): visit each entry of
`node.layers`, run the callback, recurse into the entry. -/
def eachLayerMigrateH (d : String → Bool) (s : Nat) : Nat → Heap → HV → Heap
  | 0, h, _ => h
  | fuel + 1, h, node =>
    (forInVals h (hGetOpt h node "layers")).foldl
      (fun hh c => eachLayerMigrateH d s fuel (migrateLayerCB d s fuel hh c) c) h

/-- The v9 migration entry point (part_005:41-83): set `style.version = 9`
in place, migrate every function in place, and return the style itself —
the same heap address that was passed in. -/
def migrateH (d : String → Bool) (fuel : Nat) (h : Heap) (s : Nat) : Heap × Nat :=
  (eachLayerMigrateH d s fuel (setFieldH h s "version" (.num 9)) (.ref s), s)

/-- The copy loops of `extend(dest, source)` (declass.js:24-36) on field
lists: `dest`'s fields, then `source`'s assigned over them. -/
def extendFieldsH (dest source : List (String × HV)) : List (String × HV) :=
  source.foldl (fun fs kv => setFieldsAux fs kv.1 kv.2) dest

/-- `for (k in dest)` key/value enumeration of a possibly-absent value, as
`extend` performs it. -/
def fieldsOfH (h : Heap) (v : Option HV) : List (String × HV) :=
  forInPairs h v

/-- `declassLayer(layer, klass)` (declass.js:18-22) on the heap: allocate
the merged paint object, then allocate the new layer object; the input
layer cell is only read. -/
def declassLayerH (h : Heap) (layerV : HV) (klass : String) : Heap × HV :=
  let paintV := hGetOpt h layerV "paint"
  let classV := hGetOpt h layerV ("paint." ++ klass)
  let p1 := allocCell h (.obj (extendFieldsH (fieldsOfH h paintV) (fieldsOfH h classV)))
  let p2 := allocCell p1.1
    (.obj (extendFieldsH (fieldsOfH p1.1 (some layerV)) [("paint", HV.ref p1.2)]))
  (p2.1, HV.ref p2.2)

/-- `style.layers.map(layer => classes.reduce(declassLayer, layer))`. -/
def declassLayersH (classes : List String) : Heap → List HV → Heap × List HV
  | h, [] => (h, [])
  | h, e :: rest =>
    let p := (classes.foldl (fun q c => declassLayerH q.1 q.2 c) (h, e))
    let r := declassLayersH classes p.1 rest
    (r.1, p.2 :: r.2)

/-- `declassStyle(style, classes)` (declass.js:10-16) on the heap: map the
layers, allocate the new layers array, allocate the new style object via
`extend`; nothing reachable from the input is written. -/
def declassStyleH (h : Heap) (styleV : HV) (classes : List String) : Heap × HV :=
  let elems :=
    match hGetOpt h styleV "layers" with
    | some (.ref la) =>
      (match lookupCell h la with
       | some (.arr es) => es
       | _ => [])
    | _ => []
  let r := declassLayersH classes h elems
  let p1 := allocCell r.1 (.arr r.2)
  let p2 := allocCell p1.1
    (.obj (extendFieldsH (fieldsOfH p1.1 (some styleV)) [("layers", HV.ref p1.2)]))
  (p2.1, HV.ref p2.2)


/-- Looking a cell up survives an allocation on a well-formed heap (the
fresh address cannot shadow an allocated one). -/
theorem lookupCell_alloc (h : Heap) (c : HCell) (a : Nat) (e : HCell)
    (hwf : heapWF h = true) (hl : lookupCell h a = some e) :
    lookupCell (allocCell h c).1 a = some e := by
  have hwf2 : h.cells.all (fun p => decide (p.1 < h.next)) = true := hwf
  have hne : ¬(((h.next, c).1 == a) = true) := by
    intro hc
    have ha : h.next = a := beq_iff_eq.1 hc
    rw [lookupCell] at hl
    cases hf : h.cells.find? (fun kv => kv.1 == a) with
    | none => rw [hf] at hl; exact Option.noConfusion hl
    | some kv =>
      have hmem := List.mem_of_find?_eq_some hf
      have hka0 := List.find?_some hf
      have hka : kv.1 = a := beq_iff_eq.1 hka0
      have hlt : kv.1 < h.next := of_decide_eq_true (List.all_eq_true.1 hwf2 kv hmem)
      omega
  show ((((h.next, c) :: h.cells).find? fun kv => kv.1 == a).map Prod.snd) = some e
  have hfc : (((h.next, c) :: h.cells).find? fun kv => kv.1 == a) =
      h.cells.find? (fun kv => kv.1 == a) := List.find?_cons_of_neg _ hne
  rw [hfc]
  exact hl

/-- Allocation preserves heap well-formedness. -/
theorem heapWF_alloc (h : Heap) (c : HCell) (hwf : heapWF h = true) :
    heapWF (allocCell h c).1 = true := by
  have hwf2 : h.cells.all (fun p => decide (p.1 < h.next)) = true := hwf
  show ((h.next, c) :: h.cells).all (fun p => decide (p.1 < h.next + 1)) = true
  rw [List.all_cons, Bool.and_eq_true]
  constructor
  · exact decide_eq_true (Nat.lt_succ_self _)
  · rw [List.all_eq_true]
    intro x hx
    have hx2 : x.1 < h.next := of_decide_eq_true (List.all_eq_true.1 hwf2 x hx)
    exact decide_eq_true (by omega)

/-- On a well-formed heap nothing lives at or above the allocation
counter. -/
theorem lookupCell_ge_next (h : Heap) (a : Nat) (hwf : heapWF h = true)
    (ha : h.next ≤ a) : lookupCell h a = none := by
  have hwf2 : h.cells.all (fun p => decide (p.1 < h.next)) = true := hwf
  have hnone : h.cells.find? (fun kv => kv.1 == a) = none := by
    rw [List.find?_eq_none]
    intro kv hkv hc
    have h1 : kv.1 = a := beq_iff_eq.1 hc
    have h2 : kv.1 < h.next := of_decide_eq_true (List.all_eq_true.1 hwf2 kv hkv)
    omega
  rw [lookupCell, hnone]
  rfl

/-- One heap extends another by pure allocation: the counter grows and,
from a well-formed start, well-formedness and every existing cell are
preserved. -/
def allocOnly (h h2 : Heap) : Prop :=
  h.next ≤ h2.next ∧
    (heapWF h = true → heapWF h2 = true ∧
      ∀ a c, lookupCell h a = some c → lookupCell h2 a = some c)

/-- `allocOnly` is reflexive. -/
theorem allocOnly_refl (h : Heap) : allocOnly h h :=
  ⟨Nat.le_refl _, fun hw => ⟨hw, fun _ _ hl => hl⟩⟩

/-- `allocOnly` composes. -/
theorem allocOnly_trans {h1 h2 h3 : Heap} (a12 : allocOnly h1 h2)
    (a23 : allocOnly h2 h3) : allocOnly h1 h3 := by
  refine ⟨Nat.le_trans a12.1 a23.1, fun hw => ?_⟩
  obtain ⟨hw2, hp2⟩ := a12.2 hw
  obtain ⟨hw3, hp3⟩ := a23.2 hw2
  exact ⟨hw3, fun a c hl => hp3 a c (hp2 a c hl)⟩

/-- Allocating a cell is an `allocOnly` step. -/
theorem allocOnly_alloc (h : Heap) (c : HCell) : allocOnly h (allocCell h c).1 :=
  ⟨Nat.le_succ _, fun hw =>
    ⟨heapWF_alloc h c hw, fun a e hl => lookupCell_alloc h c a e hw hl⟩⟩

/-- Declassifying one layer only allocates. -/
theorem declassLayerH_allocOnly (h : Heap) (v : HV) (k : String) :
    allocOnly h (declassLayerH h v k).1 := by
  simp only [declassLayerH]
  exact allocOnly_trans (allocOnly_alloc _ _) (allocOnly_alloc _ _)

/-- The classes fold over one layer only allocates. -/
theorem classFold_allocOnly (classes : List String) :
    ∀ q : Heap × HV,
      allocOnly q.1 (classes.foldl (fun q2 c => declassLayerH q2.1 q2.2 c) q).1 := by
  induction classes with
  | nil => intro q; exact allocOnly_refl _
  | cons c cs ih =>
    intro q
    rw [List.foldl_cons]
    exact allocOnly_trans (declassLayerH_allocOnly q.1 q.2 c) (ih _)

/-- Declassifying a layer list only allocates. -/
theorem declassLayersH_allocOnly (classes : List String) :
    ∀ (es : List HV) (h : Heap), allocOnly h (declassLayersH classes h es).1 := by
  intro es
  induction es with
  | nil => intro h; exact allocOnly_refl _
  | cons e rest ih =>
    intro h
    simp only [declassLayersH]
    exact allocOnly_trans (classFold_allocOnly classes (h, e)) (ih _)

/-- Declassifying a style only allocates. -/
theorem declassStyleH_allocOnly (h : Heap) (v : HV) (classes : List String) :
    allocOnly h (declassStyleH h v classes).1 := by
  simp only [declassStyleH]
  exact allocOnly_trans (declassLayersH_allocOnly classes _ h)
    (allocOnly_trans (allocOnly_alloc _ _) (allocOnly_alloc _ _))

/-- The style `declassStyleH` returns lives at a fresh address, absent
from the input heap. -/
theorem declassStyleH_fresh (h : Heap) (v : HV) (classes : List String)
    (hwf : heapWF h = true) :
    ∃ a2, (declassStyleH h v classes).2 = HV.ref a2 ∧ lookupCell h a2 = none := by
  simp only [declassStyleH]
  refine ⟨_, rfl, ?_⟩
  apply lookupCell_ge_next h _ hwf
  exact Nat.le_succ_of_le (declassLayersH_allocOnly classes _ h).1

/-- The migration test style of the repository (part_004:7-27) laid out on
the heap: the style at address 0, its single layer at 2, the layer's
`layout` at 3 and the `line-width` function `{base: 2, stops: [[1, 2],
[3, 6]]}` at 4. -/
def c7Heap : Heap :=
  { next := 8,
    cells := [
      (0, .obj [("version", .num 8), ("layers", .ref 1)]),
      (1, .arr [.ref 2]),
      (2, .obj [("id", .str "functions"), ("layout", .ref 3)]),
      (3, .obj [("line-width", .ref 4)]),
      (4, .obj [("base", .num 2), ("stops", .ref 5)]),
      (5, .arr [.ref 6, .ref 7]),
      (6, .arr [.num 1, .num 2]),
      (7, .arr [.num 3, .num 6])] }

/-- C7 counterexample: `migrate` mutates its input.  On the repository's
own v9 migration test style, the returned style is the very address that
was passed in, the input's `version` field now reads 9 instead of 8, and
the function object at the input's address 4 has been rewritten in place
(`domain`/`range`/`type` added, `stops` deleted) — refuting the claim that
migrate leaves the input unchanged and returns an independent document. -/
theorem claim7_counterexample :
    (migrateH (fun _ => false) 9 c7Heap 0).2 = 0 ∧
    getFieldH c7Heap 0 "version" = some (.num 8) ∧
    getFieldH (migrateH (fun _ => false) 9 c7Heap 0).1 0 "version" = some (.num 9) ∧
    lookupCell c7Heap 4 = some (.obj [("base", .num 2), ("stops", .ref 5)]) ∧
    lookupCell (migrateH (fun _ => false) 9 c7Heap 0).1 4 =
      some (.obj [("base", .num 2), ("domain", .ref 8), ("range", .ref 9),
        ("type", .str "exponential")]) :=
  ⟨rfl, rfl, rfl, rfl, rfl⟩

/-- C7 (amended): `declassStyle` never mutates — on a well-formed heap it
preserves every existing cell and returns a freshly allocated document —
while `migrate` works in place and returns exactly the style address it
was given. -/
theorem claim7_decl_migrate_effects (h : Heap) (styleV : HV) (classes : List String)
    (d : String → Bool) (fuel : Nat) (s : Nat) (hwf : heapWF h = true) :
    (∀ a c, lookupCell h a = some c →
      lookupCell (declassStyleH h styleV classes).1 a = some c) ∧
    (∃ a2, (declassStyleH h styleV classes).2 = HV.ref a2 ∧ lookupCell h a2 = none) ∧
    (migrateH d fuel h s).2 = s :=
  ⟨((declassStyleH_allocOnly h styleV classes).2 hwf).2,
   declassStyleH_fresh h styleV classes hwf, rfl⟩

/-- C7 witness: the amended statement instantiated on the concrete
migration test heap. -/
theorem claim7_effects_witness :
    heapWF c7Heap = true ∧
    ((∀ a c, lookupCell c7Heap a = some c →
        lookupCell (declassStyleH c7Heap (HV.ref 0) ["night"]).1 a = some c) ∧
      (∃ a2, (declassStyleH c7Heap (HV.ref 0) ["night"]).2 = HV.ref a2 ∧
        lookupCell c7Heap a2 = none) ∧
      (migrateH (fun _ => false) 9 c7Heap 0).2 = 0) :=
  ⟨rfl, claim7_decl_migrate_effects c7Heap (HV.ref 0) ["night"] (fun _ => false) 9 0 rfl⟩


end StyleSpec

section DeqScratch
open StyleSpec

example : deq (.num 3) (.num 3) = true := by rfl
example : deq (.arr [.num 1, .str "a"]) (.arr [.num 1, .str "a"]) = true := by rfl
example : deq (.obj [("a", .num 1), ("b", .num 2)]) (.obj [("b", .num 2), ("a", .num 1)]) = true := by rfl
example : deq (.obj [("a", .num 1)]) (.obj [("a", .num 2)]) = false := by rfl
example : deq (.arr [.num 1, .num 2]) (.arr [.num 1]) = false := by rfl

/-! The repository's diff test suite (`test/diff.js`), replayed against the
modelled engine: each `deepEqual` of the suite holds of `diffStyles`. -/

example : diffStyles { layers := [{ id := "a" }] } { layers := [{ id := "a" }] } = [] := by rfl

example :
    diffStyles { version := some 7, layers := [{ id := "a" }] }
      { version := some 8, layers := [{ id := "a" }] } =
      [.setStyle { version := some 8, layers := [{ id := "a" }] }] := by rfl

example :
    diffStyles { layers := [{ id := "a" }] } { layers := [{ id := "a" }, { id := "b" }] } =
      [.addLayer { id := "b" } none] := by rfl

example :
    diffStyles { layers := [{ id := "b" }] } { layers := [{ id := "a" }, { id := "b" }] } =
      [.addLayer { id := "a" } (some "b")] := by rfl

example :
    diffStyles
      { layers := [{ id := "a" }, { id := "b", source := some (.str "foo") }] }
      { layers := [{ id := "a" }] } =
      [.removeLayer "b"] := by rfl

example :
    diffStyles { layers := [{ id := "a" }, { id := "b" }] }
      { layers := [{ id := "b" }, { id := "a" }] } =
      [.removeLayer "a", .addLayer { id := "a" } none] := by rfl

example :
    diffStyles { layers := [{ id := "a", paint := some [("foo", .num 1)] }] }
      { layers := [{ id := "a", paint := some [("foo", .num 2)] }] } =
      [.setPaintProperty "a" "foo" (some (.num 2)) none] := by rfl

example :
    diffStyles { layers := [{ id := "a", paintClasses := [("light", [("foo", .num 1)])] }] }
      { layers := [{ id := "a", paintClasses := [("light", [("foo", .num 2)])] }] } =
      [.setPaintProperty "a" "foo" (some (.num 2)) (some "light")] := by rfl

example :
    diffStyles
      { layers := [{ id := "a", paint := some [("foo", .obj [("ramp", .arr [.num 1, .num 2])])] }] }
      { layers := [{ id := "a", paint := some [("foo", .obj [("ramp", .arr [.num 1])])] }] } =
      [.setPaintProperty "a" "foo" (some (.obj [("ramp", .arr [.num 1])])) none] := by rfl

example :
    diffStyles { layers := [{ id := "a", layout := some [("foo", .num 1)] }] }
      { layers := [{ id := "a", layout := some [("foo", .num 2)] }] } =
      [.setLayoutProperty "a" "foo" (some (.num 2)) none] := by rfl

example :
    diffStyles
      { layers := [{ id := "a", filter := some (.arr [.str "==", .str "foo", .str "bar"]) }] }
      { layers := [{ id := "a", filter := some (.arr [.str "==", .str "foo", .str "baz"]) }] } =
      [.setFilter "a" (some (.arr [.str "==", .str "foo", .str "baz"]))] := by rfl

example :
    diffStyles { sources := [("foo", .num 1)] } { sources := [] } =
      [.removeSource "foo"] := by rfl

example :
    diffStyles { sources := [] } { sources := [("foo", .num 1)] } =
      [.addSource "foo" (.num 1)] := by rfl

example :
    diffStyles {} { metadata := some (.obj [("mapbox:author", .str "nobody")]) } = [] := by rfl

example :
    diffStyles
      { layers := [{ id := "a", metadata := some (.obj [("mapbox:group", .str "Group Name")]) }] }
      { layers := [{ id := "a", metadata := some (.obj [("mapbox:group", .str "Another Name")]) }] } =
      [] := by rfl

example :
    diffStyles { center := some (.arr [.num 0, .num 0]) }
      { center := some (.arr [.num 1, .num 1]) } =
      [.setCenter (some (.arr [.num 1, .num 1]))] := by rfl

example :
    diffStyles { zoom := some (.num 12) } { zoom := some (.num 15) } =
      [.setZoom (some (.num 15))] := by rfl

example :
    diffStyles { bearing := some (.num 0) } { bearing := some (.num 180) } =
      [.setBearing (some (.num 180))] := by rfl

example :
    diffStyles { pitch := some (.num 0) } { pitch := some (.num 1) } =
      [.setPitch (some (.num 1))] := by rfl

example :
    diffStyles
      { layers := [{ id := "a" }, { id := "b" }, { id := "c", ref := some "b" }] }
      { layers := [{ id := "a" }] } =
      [.removeLayer "b"] := by rfl

example :
    diffStyles
      { layers := [{ id := "a" }, { id := "b" }, { id := "c", ref := some "b" }] }
      { layers := [{ id := "a" }, { id := "b" }] } =
      [.removeLayer "c"] := by rfl

/-! The repository's migration tests (`test/migrate/v9.js`), replayed at the
property-value level: the interpolated `line-width` function (`line-width`
is not discrete) and the piecewise-constant `text-transform` function
(discrete).  `deepEqual` of the suite is key-order-insensitive, embedded by
`deq`. -/

example :
    deq
      (migrateFunction false
        (.obj [("base", .num 2),
               ("stops", .arr [.arr [.num 1, .num 2], .arr [.num 3, .num 6]])]))
      (.obj [("type", .str "exponential"), ("base", .num 2),
             ("domain", .arr [.num 1, .num 3]), ("range", .arr [.num 2, .num 6])]) =
      true := by rfl

example :
    deq
      (migrateFunction true
        (.obj [("stops", .arr [.arr [.num 1, .str "uppercase"], .arr [.num 3, .str "lowercase"]])]))
      (.obj [("type", .str "interval"), ("domain", .arr [.num 3]),
             ("range", .arr [.str "uppercase", .str "lowercase"])]) =
      true := by rfl

/-! The repository's declass tests (`test/declass.js`), replayed against the
embedding. -/

example :
    declassStyleJ
      (.obj [("layers", .arr [.obj [
        ("id", .str "a"),
        ("paint", .obj [("fill-color", .obj [("base", .num 2)]), ("fill-outline-color", .str "green")]),
        ("paint.one", .obj [("fill-color", .obj [("base", .num 1)]), ("fill-opacity", .num 5)])]])])
      ["one"] =
    some (.obj [("layers", .arr [.obj [
        ("id", .str "a"),
        ("paint", .obj [("fill-color", .obj [("base", .num 1)]), ("fill-outline-color", .str "green"),
                        ("fill-opacity", .num 5)]),
        ("paint.one", .obj [("fill-color", .obj [("base", .num 1)]), ("fill-opacity", .num 5)])]])]) := by
  rfl

example :
    declassStyleJ
      (.obj [("layers", .arr [.obj [
        ("id", .str "a"),
        ("paint", .obj [("fill-color", .str "red"), ("fill-outline-color", .str "green")])]])])
      ["one"] =
    some (.obj [("layers", .arr [.obj [
        ("id", .str "a"),
        ("paint", .obj [("fill-color", .str "red"), ("fill-outline-color", .str "green")])]])]) := by
  rfl

example :
    declassStyleJ
      (.obj [("layers", .arr [.obj [
        ("id", .str "a"),
        ("paint", .obj [("fill-color", .str "red"), ("fill-outline-color", .str "green")]),
        ("paint.one", .obj [("fill-color", .str "blue"), ("fill-opacity", .num 5)]),
        ("paint.two", .obj [("fill-opacity", .num 75), ("fill-something-else", .bool true)])]])])
      ["one", "two"] =
    some (.obj [("layers", .arr [.obj [
        ("id", .str "a"),
        ("paint", .obj [("fill-color", .str "blue"), ("fill-outline-color", .str "green"),
                        ("fill-opacity", .num 75), ("fill-something-else", .bool true)]),
        ("paint.one", .obj [("fill-color", .str "blue"), ("fill-opacity", .num 5)]),
        ("paint.two", .obj [("fill-opacity", .num 75), ("fill-something-else", .bool true)])]])]) := by
  rfl

end DeqScratch
